import Mathlib

/-!
# Verification development for the lesson pages' front-end scripts

Two pieces of the repository are embedded here.

* `src/js/lessons/lesson-2.js`: the temperature-sampling visualisation, that is the
  table `initialLogits`, the arrow function `softmax` and the row data computed by
  `updateTempViz`.  The function is embedded twice.
  - `softmaxDouble` runs lines 43-49 on the source language's Numbers, IEEE 754 binary64
    (`JsNumber`): `NaN`, the two infinities and the finite doubles, with every arithmetic
    result rounded to nearest, ties to even, and overflow to an infinity.  The two zeros
    are identified (their sign is observable only by dividing by a zero).  `Math.exp` is
    fixed by the language at `NaN`, the infinities and zero; at the other finite arguments
    it is the host's approximation, a parameter `expFinite`, and what a theorem needs of it
    is an explicit assumption (`ExpUnitRange`, `ExpMonotone`, `ExpUnderflow`).  Inputs are
    `JsNumber.fin q` for any rational `q`, which covers every finite double.  The
    properties stated for all scores and temperatures are settled on this embedding.
  - `softmax` is the same formula in an ordered field `α` with the exponential as a
    parameter; the theorems take `α = ℝ` and `Real.exp`.  It is the exact arithmetic
    that the doubles approximate, and is used for the numerical values on the fixed table
    (where rounding is far inside the tolerance) and for the limit at high temperature.
* `src/js/utils/mobile-menu.js` (bundled verbatim into `js/utils.js`): the three event
  handlers installed by `initMobileMenu`, as a step function on the two pieces of DOM
  state they read and write.
-/

namespace Lesson2

/-- One row of the `initialLogits` table: `{ token, logit }`. -/
structure LogitEntry (α : Type) where
  token : String
  logit : α

/-- The table `initialLogits` of `lesson-2.js`, lines 35-41. -/
def initialLogits (α : Type) [LinearOrderedField α] : List (LogitEntry α) :=
  [ { token := "deterministic", logit := 4.0 },
    { token := "focused", logit := 3.5 },
    { token := "creative", logit := 2.0 },
    { token := "surprising", logit := 1.5 },
    { token := "random", logit := 0.5 } ]

/-- Model of `Math.max(...xs)`: starts from `-Infinity` (here `⊥`) and takes the larger value
element by element. -/
def mathMax {α : Type} [LinearOrderedField α] (xs : List α) : WithBot α :=
  xs.foldl (fun m x => max m (x : WithBot α)) ⊥

/-- The arrow function `softmax` of `lesson-2.js`, lines 43-49.

`maxLogit` is `-Infinity` only for the empty array, where no element is mapped, so the
subtraction `l - maxLogit` is always performed with a finite `maxLogit`. -/
def softmax {α : Type} [LinearOrderedField α] (exp : α → α) (logits : List α) (temp : α) :
    List α :=
  let adjustedLogits := logits.map (fun l => l / temp)
  let maxLogit := mathMax adjustedLogits
  let exps := adjustedLogits.map (fun l => exp (l - maxLogit.unbot' 0))
  let sumExps := exps.foldl (fun a b => a + b) 0
  exps.map (fun e => e / sumExps)

/-- The error named by the specification for rejected inputs. -/
inductive InvalidInputError where
  | invalidInput
  deriving DecidableEq, Repr

/-- The outcome of the call `softmax(logits, temp)` in `updateTempViz`, line 54: the body
of `softmax` has no `throw` and no guard on `logits` or `temp`, so every call completes
with the array it computed. -/
def computeDistribution {α : Type} [LinearOrderedField α] (exp : α → α) (logits : List α)
    (temp : α) : Except InvalidInputError (List α) :=
  Except.ok (softmax exp logits temp)

/-- Reference definition following the specification's glossary: exponentiate each
temperature-scaled score and normalise by the sum of the exponentials. -/
def softmaxReference {α : Type} [LinearOrderedField α] (exp : α → α) (scores : List α)
    (temperature : α) : List α :=
  scores.map (fun s =>
    exp (s / temperature) / (scores.map (fun r => exp (r / temperature))).sum)

/-! ### The source language's Numbers -/

/-- A value of the source language's Number type: IEEE 754 binary64 with the two
zeros identified.  `fin q` is the finite double of value `q`; the operations below accept
any rational `q` as an operand and return rounded results, so every statement made for
all `fin q` holds in particular for the doubles. -/
inductive JsNumber where
  | nan
  | posInf
  | negInf
  | fin (q : ℚ)
  deriving DecidableEq, Repr

/-- Round a rational to the nearest integer, ties to the even one. -/
def roundHalfEven (x : ℚ) : ℤ :=
  if x - ⌊x⌋ < 1 / 2 then ⌊x⌋
  else if 1 / 2 < x - ⌊x⌋ then ⌊x⌋ + 1
  else if ⌊x⌋ % 2 = 0 then ⌊x⌋ else ⌊x⌋ + 1

/-- Spacing of the binary64 grid around `x ≥ 0`: `2 ^ (e - 52)` where
`2 ^ e ≤ x < 2 ^ (e + 1)`, with `e` not below the smallest normal exponent `-1022`
(subnormal spacing `2 ^ (-1074)`). -/
def quantum (x : ℚ) : ℚ :=
  (2 : ℚ) ^ (max (Int.log 2 x) (-1022) - 52)

/-- Round-to-nearest-even of `x ≥ 0` on the binary64 grid, exponent unbounded above. -/
def roundMagnitude (x : ℚ) : ℚ :=
  (roundHalfEven (x / quantum x) : ℚ) * quantum x

/-- Round-to-nearest-even on the binary64 grid, exponent unbounded above. -/
def roundFinite (q : ℚ) : ℚ :=
  if 0 ≤ q then roundMagnitude q else -roundMagnitude (-q)

/-- Magnitudes from `2 ^ 1024 - 2 ^ 970` on round to an infinity. -/
def overflowThreshold : ℚ := 2 ^ 1024 - 2 ^ 970

/-- The double nearest to the exact result `q` of an arithmetic operation. -/
def round64 (q : ℚ) : JsNumber :=
  if overflowThreshold ≤ q then JsNumber.posInf
  else if q ≤ -overflowThreshold then JsNumber.negInf
  else JsNumber.fin (roundFinite q)

/-- The operator `/` on Numbers: `NaN` from a `NaN` operand, from `0 / 0` and from a
quotient of two infinities; an infinity from a non-zero finite Number divided by zero (the
zero divisor counted as `+0`); 0 from a finite Number divided by an infinity; otherwise the
rounded quotient. -/
def fdiv : JsNumber → JsNumber → JsNumber
  | JsNumber.nan, _ => JsNumber.nan
  | _, JsNumber.nan => JsNumber.nan
  | JsNumber.posInf, JsNumber.fin y => if 0 ≤ y then JsNumber.posInf else JsNumber.negInf
  | JsNumber.negInf, JsNumber.fin y => if 0 ≤ y then JsNumber.negInf else JsNumber.posInf
  | JsNumber.fin _, JsNumber.posInf => JsNumber.fin 0
  | JsNumber.fin _, JsNumber.negInf => JsNumber.fin 0
  | JsNumber.fin x, JsNumber.fin y =>
    if y = 0 then
      if x = 0 then JsNumber.nan else if 0 < x then JsNumber.posInf else JsNumber.negInf
    else round64 (x / y)
  | _, _ => JsNumber.nan

/-- The operator `+` on Numbers: `NaN` from a `NaN` operand and from the sum of opposite
infinities, otherwise an infinity operand or the rounded sum. -/
def fadd : JsNumber → JsNumber → JsNumber
  | JsNumber.nan, _ => JsNumber.nan
  | _, JsNumber.nan => JsNumber.nan
  | JsNumber.posInf, JsNumber.negInf => JsNumber.nan
  | JsNumber.negInf, JsNumber.posInf => JsNumber.nan
  | JsNumber.posInf, _ => JsNumber.posInf
  | JsNumber.negInf, _ => JsNumber.negInf
  | JsNumber.fin _, JsNumber.posInf => JsNumber.posInf
  | JsNumber.fin _, JsNumber.negInf => JsNumber.negInf
  | JsNumber.fin x, JsNumber.fin y => round64 (x + y)

/-- The operator `-` on Numbers: `NaN` from a `NaN` operand and from the difference of
equal infinities (`Infinity - Infinity`), otherwise the infinity that dominates or the
rounded difference. -/
def fsub : JsNumber → JsNumber → JsNumber
  | JsNumber.nan, _ => JsNumber.nan
  | _, JsNumber.nan => JsNumber.nan
  | JsNumber.posInf, JsNumber.posInf => JsNumber.nan
  | JsNumber.negInf, JsNumber.negInf => JsNumber.nan
  | JsNumber.posInf, _ => JsNumber.posInf
  | JsNumber.negInf, _ => JsNumber.negInf
  | JsNumber.fin _, JsNumber.posInf => JsNumber.negInf
  | JsNumber.fin _, JsNumber.negInf => JsNumber.posInf
  | JsNumber.fin x, JsNumber.fin y => round64 (x - y)

/-- The larger of two Numbers as `Math.max` takes it: `NaN` if either is `NaN`. -/
def jsMax : JsNumber → JsNumber → JsNumber
  | JsNumber.nan, _ => JsNumber.nan
  | _, JsNumber.nan => JsNumber.nan
  | JsNumber.posInf, _ => JsNumber.posInf
  | _, JsNumber.posInf => JsNumber.posInf
  | JsNumber.negInf, y => y
  | x, JsNumber.negInf => x
  | JsNumber.fin x, JsNumber.fin y => JsNumber.fin (max x y)

/-- Model of `Math.max(...xs)` on Numbers: `-Infinity` for no argument. -/
def mathMaxDouble (xs : List JsNumber) : JsNumber :=
  xs.foldl jsMax JsNumber.negInf

/-- Model of `Math.exp`: the values the language fixes (`NaN`, the infinities, zero), and
the host's approximation `expFinite` at every other finite argument. -/
def mathExp (expFinite : ℚ → JsNumber) : JsNumber → JsNumber
  | JsNumber.nan => JsNumber.nan
  | JsNumber.posInf => JsNumber.posInf
  | JsNumber.negInf => JsNumber.fin 0
  | JsNumber.fin x => if x = 0 then JsNumber.fin 1 else expFinite x

/-- The arrow function `softmax` of `lesson-2.js`, lines 43-49, on Numbers. -/
def softmaxDouble (expFinite : ℚ → JsNumber) (logits : List JsNumber) (temp : JsNumber) :
    List JsNumber :=
  let adjustedLogits := logits.map (fun l => fdiv l temp)
  let maxLogit := mathMaxDouble adjustedLogits
  let exps := adjustedLogits.map (fun l => mathExp expFinite (fsub l maxLogit))
  let sumExps := exps.foldl (fun a b => fadd a b) (JsNumber.fin 0)
  exps.map (fun e => fdiv e sumExps)

/-- The rational value of a finite Number (0 for `NaN` and the infinities). -/
def JsNumber.toRat : JsNumber → ℚ
  | JsNumber.fin q => q
  | _ => 0

/-- Assumption on the host's `Math.exp`: at a negative finite argument it returns a finite
Number between 0 and 1. -/
def ExpUnitRange (expFinite : ℚ → JsNumber) : Prop :=
  ∀ x : ℚ, x < 0 → ∃ y : ℚ, expFinite x = JsNumber.fin y ∧ 0 ≤ y ∧ y ≤ 1

/-- Assumption on the host's `Math.exp`: it is non-decreasing on negative finite
arguments. -/
def ExpMonotone (expFinite : ℚ → JsNumber) : Prop :=
  ∀ x y a b : ℚ, x ≤ y → y < 0 → expFinite x = JsNumber.fin a → expFinite y = JsNumber.fin b →
    a ≤ b

/-- The entry of `exps` computed from the adjusted logit `a` when `maxLogit` is `m`:
`Math.exp(a - m)`. -/
def shiftedExp (expFinite : ℚ → JsNumber) (m a : ℚ) : JsNumber :=
  mathExp expFinite (fsub (JsNumber.fin a) (JsNumber.fin m))

/-- Assumption on the host's `Math.exp`: it underflows to 0 at finite arguments not above
`-746` (the exponential of `-746` is below half the smallest positive Number). -/
def ExpUnderflow (expFinite : ℚ → JsNumber) : Prop :=
  ∀ x : ℚ, x ≤ -746 → expFinite x = JsNumber.fin 0

/-- A stand-in for the host's `Math.exp` at finite arguments (0 up to `-746`, `1 / (1 - x)`
rounded for the other `x < 0`), which meets `ExpUnitRange`, `ExpMonotone` and
`ExpUnderflow`; it shows that the assumptions can hold together. -/
def sampleExp (x : ℚ) : JsNumber :=
  if x ≤ -746 then JsNumber.fin 0
  else if x < 0 then JsNumber.fin (roundFinite (1 / (1 - x)))
  else JsNumber.posInf

/-- A running sum that is `+Infinity` or a finite Number not below `c`. -/
def SumAtLeast (c : ℚ) (x : JsNumber) : Prop :=
  x = JsNumber.posInf ∨ ∃ S : ℚ, c ≤ S ∧ x = JsNumber.fin S

/-- The rows computed by `updateTempViz` (lines 52-67) for the parsed slider value `temp`:
the token of the `i`-th item of `initialLogits` next to `probs[i]`, where `probs` is the
array returned by `softmax` on the logits of the table.  The HTML string built around each
pair and the `toFixed(1)` rendering are left out. -/
def updateTempViz (expFinite : ℚ → JsNumber) (temp : JsNumber) :
    List (String × Option JsNumber) :=
  let probs := softmaxDouble expFinite
    ((initialLogits ℚ).map (fun l => JsNumber.fin l.logit)) temp
  (initialLogits ℚ).enum.map (fun p => (p.2.token, probs[p.1]?))

/-- The reference softmax evaluated on Numbers without subtracting the maximum:
`exp(s / T)` divided by the sum of those exponentials. -/
def softmaxReferenceDouble (expFinite : ℚ → JsNumber) (scores : List JsNumber)
    (temperature : JsNumber) : List JsNumber :=
  scores.map (fun s =>
    fdiv (mathExp expFinite (fdiv s temperature))
      ((scores.map (fun r => mathExp expFinite (fdiv r temperature))).foldl
        (fun a b => fadd a b) (JsNumber.fin 0)))

end Lesson2

namespace MobileMenu

/-- The DOM state read and written by the handlers of `initMobileMenu`: whether the
menu's class list contains `'hidden'`, and the value of the toggle's `aria-expanded`
attribute (`none` while the attribute is absent). -/
structure MenuState where
  hidden : Bool
  ariaExpanded : Option String
  deriving DecidableEq, Repr

/-- The events the installed listeners react to.  A click is classified by where its
target lies, a keydown carries `e.key`. -/
inductive Event where
  | clickToggle
  | clickMenu
  | clickOutside
  | keydown (key : String)
  deriving DecidableEq, Repr

/-- The `click` listener on the toggle (`mobile-menu.js`, lines 15-25). -/
def toggleClick (s : MenuState) : MenuState :=
  let isOpen := s.hidden
  if isOpen then
    { hidden := false, ariaExpanded := some "true" }
  else
    { hidden := true, ariaExpanded := some "false" }

/-- The `click` listener on the document (lines 28-33); the two flags are
`toggle.contains(e.target)` and `menu.contains(e.target)`. -/
def documentClick (toggleContains menuContains : Bool) (s : MenuState) : MenuState :=
  if !toggleContains && !menuContains then
    { hidden := true, ariaExpanded := some "false" }
  else
    s

/-- The `keydown` listener on the document (lines 36-41). -/
def documentKeydown (key : String) (s : MenuState) : MenuState :=
  if key == "Escape" && !s.hidden then
    { hidden := true, ariaExpanded := some "false" }
  else
    s

/-- One event dispatched to the listeners installed by `initMobileMenu`.  A click on the
toggle runs the toggle's listener and then bubbles to the document's listener. -/
def step (s : MenuState) : Event → MenuState
  | Event.clickToggle => documentClick true false (toggleClick s)
  | Event.clickMenu => documentClick false true s
  | Event.clickOutside => documentClick false false s
  | Event.keydown key => documentKeydown key s

/-- The attribute `aria-expanded` is `'true'` exactly when the menu lacks `'hidden'`. -/
def Consistent (s : MenuState) : Prop :=
  s.ariaExpanded = some "true" ↔ s.hidden = false

instance (s : MenuState) : Decidable (Consistent s) := by
  unfold Consistent
  infer_instance

end MobileMenu

namespace Lesson2

/-! ### General facts about `softmax` in exact arithmetic -/

/-- The `reduce((a, b) => a + b, 0)` of the source is the sum of the array. -/
theorem reduce_add_eq_sum {α : Type} [LinearOrderedField α] (xs : List α) :
    xs.foldl (fun a b => a + b) 0 = xs.sum := by
  rw [List.sum_eq_foldl]

/-- Unfolding of `softmax` into a single `map` over the input, with the shift `c` that
the source subtracts before exponentiating. -/
theorem softmax_eq_map_shift {α : Type} [LinearOrderedField α] (exp : α → α)
    (logits : List α) (temp : α) :
    softmax exp logits temp =
      logits.map (fun l =>
        exp (l / temp - (mathMax (logits.map (fun l => l / temp))).unbot' 0) /
          (logits.map (fun r =>
            exp (r / temp - (mathMax (logits.map (fun l => l / temp))).unbot' 0))).sum) := by
  simp only [softmax, reduce_add_eq_sum, List.map_map]
  rfl

/-- Dividing every summand by `c` divides the sum by `c`. -/
theorem sum_map_div (f : ℝ → ℝ) (c : ℝ) (l : List ℝ) :
    (l.map (fun s => f s / c)).sum = (l.map f).sum / c := by
  simp only [div_eq_mul_inv, List.sum_map_mul_right]

/-- A common shift of all exponents leaves the quotient unchanged. -/
theorem quotient_shift (scores : List ℝ) (temp c x : ℝ) :
    Real.exp (x / temp) / (scores.map (fun r => Real.exp (r / temp))).sum =
      Real.exp (x / temp - c) / (scores.map (fun r => Real.exp (r / temp - c))).sum := by
  have hsum : (scores.map (fun r => Real.exp (r / temp - c))).sum =
      (scores.map (fun r => Real.exp (r / temp))).sum / Real.exp c := by
    rw [← sum_map_div]
    congr 1
    apply List.map_congr_left
    intro r _
    rw [Real.exp_sub]
  rw [hsum, Real.exp_sub, div_div_div_cancel_right₀ (Real.exp_ne_zero c)]

/-- The shift cancels: over the reals the source computes the reference softmax. -/
theorem softmax_eq_reference (logits : List ℝ) (temp : ℝ) :
    softmax Real.exp logits temp = softmaxReference Real.exp logits temp := by
  rw [softmax_eq_map_shift, softmaxReference]
  apply List.map_congr_left
  intro l _
  exact (quotient_shift logits temp _ l).symm

/-- Element access into the result of `softmax` over the reals. -/
theorem softmax_getElem? (logits : List ℝ) (temp : ℝ) (i : ℕ) :
    (softmax Real.exp logits temp)[i]? =
      (logits[i]?).map (fun s =>
        Real.exp (s / temp) / (logits.map (fun r => Real.exp (r / temp))).sum) := by
  rw [softmax_eq_reference, softmaxReference, List.getElem?_map]

/-- The result has one entry per input score, whatever the temperature. -/
theorem softmax_length {α : Type} [LinearOrderedField α] (exp : α → α)
    (logits : List α) (temp : α) :
    (softmax exp logits temp).length = logits.length := by
  simp [softmax]

/-! ### Absence of an error path -/

/-- C2 (as stated, refuted): the call on the empty list returns the empty list and the
call with the negative temperature `-1` returns `[1]`; neither fails. -/
theorem computeDistribution_invalid_input_returns :
    computeDistribution Real.exp ([] : List ℝ) 1 = Except.ok [] ∧
      computeDistribution Real.exp ([0] : List ℝ) (-1) = Except.ok [1] ∧
      ¬ (∀ (logits : List ℝ) (temp : ℝ), logits = [] ∨ temp ≤ 0 →
          computeDistribution Real.exp logits temp =
            Except.error InvalidInputError.invalidInput) := by
  have h1 : computeDistribution Real.exp ([] : List ℝ) 1 = Except.ok [] := by
    simp [computeDistribution, softmax]
  have h2 : computeDistribution Real.exp ([0] : List ℝ) (-1) = Except.ok [1] := by
    simp [computeDistribution, softmax_eq_reference, softmaxReference]
  refine ⟨h1, h2, fun h => ?_⟩
  have h3 := h [] 1 (Or.inl rfl)
  rw [h1] at h3
  exact absurd h3 (by simp)

/-- C2 (amended): `softmax` has no error path; for every list of scores and every
temperature, the empty list and zero or negative temperatures included, the call
returns a list with as many elements as there are scores. -/
theorem computeDistribution_total {α : Type} [LinearOrderedField α] (exp : α → α)
    (logits : List α) (temp : α) :
    ∃ probs, computeDistribution exp logits temp = Except.ok probs ∧
      probs.length = logits.length :=
  ⟨softmax exp logits temp, rfl, softmax_length exp logits temp⟩

/-! ### The fixed table `initialLogits` -/

/-- On the scores of `initialLogits` every exponential is a power of
`u = exp (0.5 / temp)`, so the five probabilities are rational functions of `u`. -/
theorem softmax_table (temp : ℝ) :
    softmax Real.exp ((initialLogits ℝ).map (fun l => l.logit)) temp =
      [ Real.exp (0.5 / temp) ^ 8 /
          (Real.exp (0.5 / temp) ^ 8 + Real.exp (0.5 / temp) ^ 7 +
            Real.exp (0.5 / temp) ^ 4 + Real.exp (0.5 / temp) ^ 3 + Real.exp (0.5 / temp)),
        Real.exp (0.5 / temp) ^ 7 /
          (Real.exp (0.5 / temp) ^ 8 + Real.exp (0.5 / temp) ^ 7 +
            Real.exp (0.5 / temp) ^ 4 + Real.exp (0.5 / temp) ^ 3 + Real.exp (0.5 / temp)),
        Real.exp (0.5 / temp) ^ 4 /
          (Real.exp (0.5 / temp) ^ 8 + Real.exp (0.5 / temp) ^ 7 +
            Real.exp (0.5 / temp) ^ 4 + Real.exp (0.5 / temp) ^ 3 + Real.exp (0.5 / temp)),
        Real.exp (0.5 / temp) ^ 3 /
          (Real.exp (0.5 / temp) ^ 8 + Real.exp (0.5 / temp) ^ 7 +
            Real.exp (0.5 / temp) ^ 4 + Real.exp (0.5 / temp) ^ 3 + Real.exp (0.5 / temp)),
        Real.exp (0.5 / temp) /
          (Real.exp (0.5 / temp) ^ 8 + Real.exp (0.5 / temp) ^ 7 +
            Real.exp (0.5 / temp) ^ 4 + Real.exp (0.5 / temp) ^ 3 + Real.exp (0.5 / temp)) ] := by
  have h8 : Real.exp (4.0 / temp) = Real.exp (0.5 / temp) ^ 8 := by
    rw [← Real.exp_nat_mul]; congr 1; push_cast; ring
  have h7 : Real.exp (3.5 / temp) = Real.exp (0.5 / temp) ^ 7 := by
    rw [← Real.exp_nat_mul]; congr 1; push_cast; ring
  have h4 : Real.exp (2.0 / temp) = Real.exp (0.5 / temp) ^ 4 := by
    rw [← Real.exp_nat_mul]; congr 1; push_cast; ring
  have h3 : Real.exp (1.5 / temp) = Real.exp (0.5 / temp) ^ 3 := by
    rw [← Real.exp_nat_mul]; congr 1; push_cast; ring
  rw [softmax_eq_reference]
  simp only [softmaxReference, initialLogits, List.map_cons, List.map_nil, List.sum_cons,
    List.sum_nil, h8, h7, h4, h3, add_zero, add_assoc]

/-- Bounds on `exp (1/2)` from the Taylor polynomial of degree 9. -/
theorem exp_half_bounds :
    (1.64872 : ℝ) < Real.exp (0.5 / 1) ∧ Real.exp (0.5 / 1) < 1.64873 := by
  have h := Real.exp_bound (x := (1 / 2 : ℝ)) (by rw [abs_le]; constructor <;> norm_num)
    (n := 10) (by norm_num)
  simp only [Finset.sum_range_succ, Finset.sum_range_zero, Nat.factorial] at h
  have ha : |(1 / 2 : ℝ)| = 1 / 2 := abs_of_pos (by norm_num)
  rw [abs_le, ha] at h
  have e : (0.5 / 1 : ℝ) = 1 / 2 := by norm_num
  rw [e]
  norm_num at h
  constructor
  · linarith [h.1]
  · linarith [h.2]

/-- Bounds on `exp 5` from the decimal bounds on `exp 1`. -/
theorem exp_five_bounds :
    (148.4131 : ℝ) < Real.exp (0.5 / 0.1) ∧ Real.exp (0.5 / 0.1) < 148.4132 := by
  have e : (0.5 / 0.1 : ℝ) = ((5 : ℕ) : ℝ) * 1 := by norm_num
  rw [e, Real.exp_nat_mul]
  have h1 := Real.exp_one_gt_d9
  have h2 := Real.exp_one_lt_d9
  have hpos : (0 : ℝ) ≤ 2.7182818283 := by norm_num
  constructor
  · calc (148.4131 : ℝ) < 2.7182818283 ^ 5 := by norm_num
      _ ≤ Real.exp 1 ^ 5 := pow_le_pow_left₀ hpos h1.le 5
  · calc Real.exp 1 ^ 5 ≤ 2.7182818286 ^ 5 := pow_le_pow_left₀ (Real.exp_pos 1).le h2.le 5
      _ < 148.4132 := by norm_num

/-- The first probability computed on `initialLogits`. -/
theorem softmax_table_head (temp : ℝ) :
    (softmax Real.exp ((initialLogits ℝ).map (fun l => l.logit)) temp)[0]? =
      some (Real.exp (0.5 / temp) ^ 8 /
        (Real.exp (0.5 / temp) ^ 8 + Real.exp (0.5 / temp) ^ 7 +
          Real.exp (0.5 / temp) ^ 4 + Real.exp (0.5 / temp) ^ 3 + Real.exp (0.5 / temp))) := by
  rw [softmax_table]
  rfl

/-- Enclosure of `u ^ k / (u ^ 8 + u ^ 7 + u ^ 4 + u ^ 3 + u)` from an enclosure of `u`. -/
theorem ratio_bounds (u a b : ℝ) (ha : 0 < a) (hau : a ≤ u) (hub : u ≤ b) (k : ℕ) :
    a ^ k / (b ^ 8 + b ^ 7 + b ^ 4 + b ^ 3 + b) ≤ u ^ k / (u ^ 8 + u ^ 7 + u ^ 4 + u ^ 3 + u) ∧
      u ^ k / (u ^ 8 + u ^ 7 + u ^ 4 + u ^ 3 + u) ≤ b ^ k / (a ^ 8 + a ^ 7 + a ^ 4 + a ^ 3 + a) := by
  have hu : 0 < u := lt_of_lt_of_le ha hau
  have hb : 0 < b := lt_of_lt_of_le hu hub
  have hDa : 0 < a ^ 8 + a ^ 7 + a ^ 4 + a ^ 3 + a := by positivity
  have hDu : 0 < u ^ 8 + u ^ 7 + u ^ 4 + u ^ 3 + u := by positivity
  have hak : ∀ n : ℕ, a ^ n ≤ u ^ n := fun n => pow_le_pow_left₀ ha.le hau n
  have hbk : ∀ n : ℕ, u ^ n ≤ b ^ n := fun n => pow_le_pow_left₀ hu.le hub n
  have hD1 : a ^ 8 + a ^ 7 + a ^ 4 + a ^ 3 + a ≤ u ^ 8 + u ^ 7 + u ^ 4 + u ^ 3 + u := by
    linarith [hak 8, hak 7, hak 4, hak 3]
  have hD2 : u ^ 8 + u ^ 7 + u ^ 4 + u ^ 3 + u ≤ b ^ 8 + b ^ 7 + b ^ 4 + b ^ 3 + b := by
    linarith [hbk 8, hbk 7, hbk 4, hbk 3]
  exact ⟨div_le_div₀ (pow_nonneg hu.le k) (hak k) hDu hD2,
    div_le_div₀ (pow_nonneg hb.le k) (hbk k) hDa hD1⟩

/-- C3 (as stated, refuted): at temperature 1 the probability of the first entry is
above 0.539, so it does not agree with 0.469 to within 0.001. -/
theorem initialLogits_temp_one_disagrees :
    ∃ p : ℝ, (softmax Real.exp ((initialLogits ℝ).map (fun l => l.logit)) 1)[0]? = some p ∧
      0.539 < p ∧ ¬ (|p - 0.469| ≤ 0.001) := by
  refine ⟨_, softmax_table_head _, ?_⟩
  have hb := exp_half_bounds
  have h := (ratio_bounds _ 1.64872 1.64873 (by norm_num) hb.1.le hb.2.le 8).1
  have hnum : (0.539 : ℝ) <
      1.64872 ^ 8 / (1.64873 ^ 8 + 1.64873 ^ 7 + 1.64873 ^ 4 + 1.64873 ^ 3 + 1.64873) := by
    norm_num
  have hp := lt_of_lt_of_le hnum h
  refine ⟨hp, fun habs => ?_⟩
  have := (abs_le.1 habs).2
  linarith

/-- C3 (amended): at temperature 1 the five probabilities agree with
`[0.539, 0.327, 0.0730, 0.0443, 0.0163]` position by position, each to within 0.001. -/
theorem initialLogits_temp_one_values :
    ∃ p0 p1 p2 p3 p4 : ℝ,
      softmax Real.exp ((initialLogits ℝ).map (fun l => l.logit)) 1 = [p0, p1, p2, p3, p4] ∧
      |p0 - 0.539| ≤ 0.001 ∧ |p1 - 0.327| ≤ 0.001 ∧ |p2 - 0.0730| ≤ 0.001 ∧
      |p3 - 0.0443| ≤ 0.001 ∧ |p4 - 0.0163| ≤ 0.001 := by
  refine ⟨_, _, _, _, _, softmax_table 1, ?_⟩
  have hb := exp_half_bounds
  have h8 := ratio_bounds _ 1.64872 1.64873 (by norm_num) hb.1.le hb.2.le 8
  have h7 := ratio_bounds _ 1.64872 1.64873 (by norm_num) hb.1.le hb.2.le 7
  have h4 := ratio_bounds _ 1.64872 1.64873 (by norm_num) hb.1.le hb.2.le 4
  have h3 := ratio_bounds _ 1.64872 1.64873 (by norm_num) hb.1.le hb.2.le 3
  have h1 := ratio_bounds _ 1.64872 1.64873 (by norm_num) hb.1.le hb.2.le 1
  rw [pow_one (Real.exp (0.5 / 1))] at h1
  norm_num at h8 h7 h4 h3 h1
  refine ⟨?_, ?_, ?_, ?_, ?_⟩ <;> rw [abs_le] <;> constructor <;> linarith

/-- C4 (as stated, refuted): at temperature 0.1 the probability of the first entry
('deterministic') is below 0.994, so it is not greater than 0.999. -/
theorem initialLogits_temp_tenth_not_above :
    ∃ p : ℝ, (softmax Real.exp ((initialLogits ℝ).map (fun l => l.logit)) 0.1)[0]? = some p ∧
      p < 0.994 ∧ ¬ (0.999 < p) := by
  refine ⟨_, softmax_table_head _, ?_⟩
  have hb := exp_five_bounds
  have h := (ratio_bounds _ 148.4131 148.4132 (by norm_num) hb.1.le hb.2.le 8).2
  have hnum : (148.4132 : ℝ) ^ 8 /
      (148.4131 ^ 8 + 148.4131 ^ 7 + 148.4131 ^ 4 + 148.4131 ^ 3 + 148.4131) <
      0.994 := by
    norm_num
  have hp := lt_of_le_of_lt h hnum
  exact ⟨hp, fun h9 => by linarith⟩

/-- C4 (amended): at temperature 0.1 the probability of the first entry
('deterministic', score 4.0) is strictly greater than 0.993 and less than 0.994. -/
theorem initialLogits_temp_tenth_bounds :
    ∃ p : ℝ, (softmax Real.exp ((initialLogits ℝ).map (fun l => l.logit)) 0.1)[0]? = some p ∧
      0.993 < p ∧ p < 0.994 := by
  refine ⟨_, softmax_table_head _, ?_⟩
  have hb := exp_five_bounds
  have h := ratio_bounds _ 148.4131 148.4132 (by norm_num) hb.1.le hb.2.le 8
  have hlo : (0.993 : ℝ) <
      148.4131 ^ 8 / (148.4132 ^ 8 + 148.4132 ^ 7 + 148.4132 ^ 4 + 148.4132 ^ 3 + 148.4132) := by
    norm_num
  have hhi : (148.4132 : ℝ) ^ 8 /
      (148.4131 ^ 8 + 148.4131 ^ 7 + 148.4131 ^ 4 + 148.4131 ^ 3 + 148.4131) < 0.994 := by
    norm_num
  exact ⟨lt_of_lt_of_le hlo h.1, lt_of_le_of_lt h.2 hhi⟩

/-! ### High temperatures -/

/-- The `j`-th probability as a quotient of exponentials. -/
theorem softmax_getD (logits : List ℝ) (temp : ℝ) (j : ℕ) (hj : j < logits.length) :
    (softmax Real.exp logits temp).getD j 0 =
      Real.exp (logits[j] / temp) / (logits.map (fun r => Real.exp (r / temp))).sum := by
  rw [List.getD_eq_getElem?_getD, softmax_getElem?, List.getElem?_eq_getElem hj]
  rfl

/-- C8: for every non-empty list of `n` scores, as the temperature tends to `+∞` every
probability returned by `softmax` tends to `1 / n`. -/
theorem softmax_tendsto_uniform (logits : List ℝ) (hne : logits ≠ []) :
    ∀ (j : ℕ), j < logits.length →
      Filter.Tendsto (fun T => (softmax Real.exp logits T).getD j 0) Filter.atTop
        (nhds (1 / (logits.length : ℝ))) := by
  intro j hj
  have hterm : ∀ x : ℝ, Filter.Tendsto (fun T : ℝ => Real.exp (x / T)) Filter.atTop (nhds 1) := by
    intro x
    have h0 : Filter.Tendsto (fun T : ℝ => x / T) Filter.atTop (nhds 0) :=
      tendsto_const_nhds.div_atTop Filter.tendsto_id
    have h1 := (Real.continuous_exp.tendsto 0).comp h0
    rw [Real.exp_zero] at h1
    exact h1
  have hden : Filter.Tendsto (fun T : ℝ => (logits.map (fun r => Real.exp (r / T))).sum)
      Filter.atTop (nhds (logits.map (fun _ => (1 : ℝ))).sum) :=
    tendsto_list_sum logits (fun r _ => hterm r)
  have hlen : (logits.map (fun _ => (1 : ℝ))).sum = (logits.length : ℝ) := by
    simp
  rw [hlen] at hden
  have hn : (logits.length : ℝ) ≠ 0 := by
    have : logits.length ≠ 0 := fun h => hne (List.length_eq_zero.1 h)
    exact_mod_cast this
  have hq := (hterm logits[j]).div hden hn
  refine hq.congr (fun T => ?_)
  rw [softmax_getD logits T j hj]
  rfl

theorem softmax_tendsto_uniform_witness :
    ([4, 3.5] : List ℝ) ≠ [] ∧
      ∀ (j : ℕ), j < [(4 : ℝ), 3.5].length →
        Filter.Tendsto (fun T => (softmax Real.exp [4, 3.5] T).getD j 0) Filter.atTop
          (nhds (1 / ([(4 : ℝ), 3.5].length : ℝ))) :=
  ⟨by simp, softmax_tendsto_uniform [4, 3.5] (by simp)⟩

/-! ### Rounding to the binary64 grid -/

theorem roundHalfEven_ge_floor (x : ℚ) : ⌊x⌋ ≤ roundHalfEven x := by
  unfold roundHalfEven
  split_ifs <;> omega

theorem roundHalfEven_le_floor_succ (x : ℚ) : roundHalfEven x ≤ ⌊x⌋ + 1 := by
  unfold roundHalfEven
  split_ifs <;> omega

theorem roundHalfEven_intCast (n : ℤ) : roundHalfEven (n : ℚ) = n := by
  unfold roundHalfEven
  simp

theorem roundHalfEven_mono {x y : ℚ} (h : x ≤ y) : roundHalfEven x ≤ roundHalfEven y := by
  have hf : ⌊x⌋ ≤ ⌊y⌋ := Int.floor_mono h
  rcases hf.lt_or_eq with hlt | heq
  · calc roundHalfEven x ≤ ⌊x⌋ + 1 := roundHalfEven_le_floor_succ x
      _ ≤ ⌊y⌋ := hlt
      _ ≤ roundHalfEven y := roundHalfEven_ge_floor y
  · have hxy : x - ⌊x⌋ ≤ y - ⌊y⌋ := by
      rw [heq]; linarith
    unfold roundHalfEven
    rw [heq]
    split_ifs <;> first | omega | (exfalso; linarith)

theorem roundHalfEven_sub_le (x : ℚ) : |(roundHalfEven x : ℚ) - x| ≤ 1 / 2 := by
  have h1 := Int.floor_le x
  have h2 := Int.lt_floor_add_one x
  rw [abs_le]
  unfold roundHalfEven
  split_ifs with ha hb hc
  · constructor <;> linarith
  · push_cast; constructor <;> linarith
  · constructor <;> linarith
  · push_cast; constructor <;> linarith

theorem quantum_pos (x : ℚ) : 0 < quantum x := by
  unfold quantum
  positivity

theorem two_pow_53_mul (e : ℤ) : ((2 ^ 53 : ℤ) : ℚ) * (2 : ℚ) ^ (e - 52) = (2 : ℚ) ^ (e + 1) := by
  have h : ((2 ^ 53 : ℤ) : ℚ) = (2 : ℚ) ^ (53 : ℤ) := by norm_num
  rw [h, ← zpow_add₀ (by norm_num : (2 : ℚ) ≠ 0)]
  congr 1
  ring

theorem two_pow_52_mul (e : ℤ) : ((2 ^ 52 : ℤ) : ℚ) * (2 : ℚ) ^ (e - 52) = (2 : ℚ) ^ e := by
  have h : ((2 ^ 52 : ℤ) : ℚ) = (2 : ℚ) ^ (52 : ℤ) := by norm_num
  rw [h, ← zpow_add₀ (by norm_num : (2 : ℚ) ≠ 0)]
  congr 1
  ring

theorem roundMagnitude_zero : roundMagnitude 0 = 0 := by
  unfold roundMagnitude
  rw [zero_div]
  have : roundHalfEven 0 = 0 := by exact_mod_cast roundHalfEven_intCast 0
  rw [this]
  simp

theorem roundMagnitude_nonneg {x : ℚ} (hx : 0 ≤ x) : 0 ≤ roundMagnitude x := by
  unfold roundMagnitude
  have h0 : (0 : ℤ) ≤ roundHalfEven (x / quantum x) := by
    have := roundHalfEven_mono (div_nonneg hx (quantum_pos x).le)
    have h00 : roundHalfEven 0 = 0 := by exact_mod_cast roundHalfEven_intCast 0
    rw [h00] at this
    exact this
  exact mul_nonneg (by exact_mod_cast h0) (quantum_pos x).le

/-- Rounding never moves a value by more than half the grid spacing. -/
theorem roundMagnitude_sub_le (x : ℚ) : |roundMagnitude x - x| ≤ quantum x / 2 := by
  have hq := quantum_pos x
  have h := roundHalfEven_sub_le (x / quantum x)
  have e : roundMagnitude x - x =
      ((roundHalfEven (x / quantum x) : ℚ) - x / quantum x) * quantum x := by
    unfold roundMagnitude
    field_simp
  rw [e, abs_mul, abs_of_pos hq]
  calc |(roundHalfEven (x / quantum x) : ℚ) - x / quantum x| * quantum x
      ≤ 1 / 2 * quantum x := mul_le_mul_of_nonneg_right h hq.le
    _ = quantum x / 2 := by ring

theorem roundMagnitude_mono {x y : ℚ} (hx : 0 ≤ x) (h : x ≤ y) :
    roundMagnitude x ≤ roundMagnitude y := by
  rcases hx.eq_or_lt with h0 | hpos
  · rw [← h0, roundMagnitude_zero]
    exact roundMagnitude_nonneg (h0 ▸ h)
  have hypos : 0 < y := lt_of_lt_of_le hpos h
  have hlog : Int.log 2 x ≤ Int.log 2 y := Int.log_mono_right hpos h
  have hexp : max (Int.log 2 x) (-1022) ≤ max (Int.log 2 y) (-1022) :=
    max_le_max hlog le_rfl
  rcases hexp.eq_or_lt with heq | hlt
  · have hqq : quantum x = quantum y := by unfold quantum; rw [heq]
    unfold roundMagnitude
    rw [hqq]
    have hq := quantum_pos y
    have := roundHalfEven_mono (div_le_div_of_nonneg_right h hq.le)
    exact mul_le_mul_of_nonneg_right (by exact_mod_cast this) hq.le
  · -- `y` lies in a higher binade than `x`
    set ex := max (Int.log 2 x) (-1022) with hex
    set ey := max (Int.log 2 y) (-1022) with hey
    have hey2 : ey = Int.log 2 y := by
      rw [hey]
      apply max_eq_left
      by_contra hcon
      push_neg at hcon
      have : ey = -1022 := by rw [hey]; exact max_eq_right hcon.le
      have : -1022 ≤ ex := le_max_right _ _
      omega
    have hylow : (2 : ℚ) ^ ey ≤ y := by
      rw [hey2]
      exact_mod_cast Int.zpow_log_le_self (b := 2) (by norm_num) hypos
    have hxhigh : x < (2 : ℚ) ^ (ex + 1) := by
      have h1 : x < ((2 : ℕ) : ℚ) ^ (Int.log 2 x + 1) :=
        Int.lt_zpow_succ_log_self (b := 2) (by norm_num) x
      have h2 : ((2 : ℕ) : ℚ) ^ (Int.log 2 x + 1) ≤ (2 : ℚ) ^ (ex + 1) := by
        push_cast
        apply zpow_le_zpow_right₀ (by norm_num)
        have : Int.log 2 x ≤ ex := le_max_left _ _
        omega
      exact lt_of_lt_of_le h1 h2
    have hqx : quantum x = (2 : ℚ) ^ (ex - 52) := rfl
    have hqy : quantum y = (2 : ℚ) ^ (ey - 52) := rfl
    -- upper bound for the rounded `x`
    have hux : roundMagnitude x ≤ (2 : ℚ) ^ (ex + 1) := by
      unfold roundMagnitude
      rw [hqx]
      have hc : (0 : ℚ) < (2 : ℚ) ^ (ex - 52) := by positivity
      have hdiv : x / (2 : ℚ) ^ (ex - 52) ≤ ((2 ^ 53 : ℤ) : ℚ) := by
        rw [div_le_iff₀ hc]
        rw [two_pow_53_mul]
        exact hxhigh.le
      have hr := roundHalfEven_mono hdiv
      rw [roundHalfEven_intCast] at hr
      have hr2 : (roundHalfEven (x / (2 : ℚ) ^ (ex - 52)) : ℚ) ≤ ((2 ^ 53 : ℤ) : ℚ) := by
        exact_mod_cast hr
      calc (roundHalfEven (x / (2 : ℚ) ^ (ex - 52)) : ℚ) * (2 : ℚ) ^ (ex - 52)
          ≤ ((2 ^ 53 : ℤ) : ℚ) * (2 : ℚ) ^ (ex - 52) := mul_le_mul_of_nonneg_right hr2 hc.le
        _ = (2 : ℚ) ^ (ex + 1) := two_pow_53_mul ex
    -- lower bound for the rounded `y`
    have hly : (2 : ℚ) ^ ey ≤ roundMagnitude y := by
      unfold roundMagnitude
      rw [hqy]
      have hc : (0 : ℚ) < (2 : ℚ) ^ (ey - 52) := by positivity
      have hmul : ((2 ^ 52 : ℤ) : ℚ) * (2 : ℚ) ^ (ey - 52) = (2 : ℚ) ^ ey :=
        two_pow_52_mul ey
      have hdiv : ((2 ^ 52 : ℤ) : ℚ) ≤ y / (2 : ℚ) ^ (ey - 52) := by
        rw [le_div_iff₀ hc, hmul]
        exact hylow
      have hr := roundHalfEven_mono hdiv
      rw [roundHalfEven_intCast] at hr
      have hr2 : ((2 ^ 52 : ℤ) : ℚ) ≤ (roundHalfEven (y / (2 : ℚ) ^ (ey - 52)) : ℚ) := by
        exact_mod_cast hr
      calc (2 : ℚ) ^ ey = ((2 ^ 52 : ℤ) : ℚ) * (2 : ℚ) ^ (ey - 52) := hmul.symm
        _ ≤ (roundHalfEven (y / (2 : ℚ) ^ (ey - 52)) : ℚ) * (2 : ℚ) ^ (ey - 52) :=
          mul_le_mul_of_nonneg_right hr2 hc.le
    calc roundMagnitude x ≤ (2 : ℚ) ^ (ex + 1) := hux
      _ ≤ (2 : ℚ) ^ ey := zpow_le_zpow_right₀ (by norm_num) (by omega)
      _ ≤ roundMagnitude y := hly

/-- Rounding to the grid is monotone. -/
theorem roundFinite_mono {x y : ℚ} (h : x ≤ y) : roundFinite x ≤ roundFinite y := by
  unfold roundFinite
  by_cases hx : 0 ≤ x
  · have hy : 0 ≤ y := le_trans hx h
    rw [if_pos hx, if_pos hy]
    exact roundMagnitude_mono hx h
  · rw [if_neg hx]
    push_neg at hx
    by_cases hy : 0 ≤ y
    · rw [if_pos hy]
      have h1 := roundMagnitude_nonneg (neg_nonneg.2 hx.le)
      have h2 := roundMagnitude_nonneg hy
      linarith
    · rw [if_neg hy]
      push_neg at hy
      have := roundMagnitude_mono (neg_nonneg.2 hy.le) (neg_le_neg h)
      linarith

theorem roundFinite_zero : roundFinite 0 = 0 := by
  unfold roundFinite
  rw [if_pos le_rfl, roundMagnitude_zero]

theorem roundFinite_one : roundFinite 1 = 1 := by
  unfold roundFinite roundMagnitude quantum
  rw [if_pos zero_le_one, Int.log_one_right]
  have e : (1 : ℚ) / (2 : ℚ) ^ (max (0 : ℤ) (-1022) - 52) = ((2 ^ 52 : ℤ) : ℚ) := by
    norm_num [zpow_neg]
  rw [e, roundHalfEven_intCast]
  norm_num [zpow_neg]

/-- The binade of a positive rational, from two-sided bounds by powers of two. -/
theorem log_two_eq {x : ℚ} {k : ℤ} (hlo : (2 : ℚ) ^ k ≤ x) (hhi : x < (2 : ℚ) ^ (k + 1)) :
    Int.log 2 x = k := by
  have hpos : 0 < x := lt_of_lt_of_le (by positivity) hlo
  have h1 : k ≤ Int.log 2 x :=
    (Int.zpow_le_iff_le_log (b := 2) (by norm_num) hpos).1 (by exact_mod_cast hlo)
  have h2 : Int.log 2 x < k + 1 :=
    (Int.lt_zpow_iff_log_lt (b := 2) (by norm_num) hpos).1 (by exact_mod_cast hhi)
  omega

/-- The decimal `0.1` rounds to the double `3602879701896397 / 2 ^ 55`, the value of the
literal `0.1` in the source language. -/
theorem roundFinite_one_tenth : roundFinite (1 / 10) = 3602879701896397 / 2 ^ 55 := by
  have hlog : Int.log 2 (1 / 10 : ℚ) = -4 :=
    log_two_eq (by norm_num [zpow_neg]) (by norm_num [zpow_neg])
  have hq : quantum (1 / 10) = 1 / 2 ^ 56 := by
    unfold quantum
    rw [hlog]
    norm_num [zpow_neg]
  have hfloor : ⌊(1 / 10 : ℚ) / (1 / 2 ^ 56)⌋ = 7205759403792793 := by
    rw [Int.floor_eq_iff]
    constructor <;> norm_num
  have hr : roundHalfEven ((1 / 10 : ℚ) / (1 / 2 ^ 56)) = 7205759403792794 := by
    unfold roundHalfEven
    rw [hfloor]
    norm_num
  unfold roundFinite roundMagnitude
  rw [if_pos (by norm_num), hq, hr]
  norm_num

/-! ### Arithmetic on Numbers away from overflow -/

theorem overflowThreshold_pos : (1 : ℚ) < overflowThreshold := by
  unfold overflowThreshold
  norm_num

theorem round64_of_abs_lt {q : ℚ} (h : |q| < overflowThreshold) :
    round64 q = JsNumber.fin (roundFinite q) := by
  have h' := abs_lt.1 h
  unfold round64
  rw [if_neg (not_le.2 h'.2), if_neg (not_le.2 h'.1)]

theorem roundFinite_nonpos {q : ℚ} (h : q ≤ 0) : roundFinite q ≤ 0 := by
  have := roundFinite_mono h
  rwa [roundFinite_zero] at this

theorem roundFinite_nonneg {q : ℚ} (h : 0 ≤ q) : 0 ≤ roundFinite q := by
  have := roundFinite_mono h
  rwa [roundFinite_zero] at this

theorem roundFinite_le_one {q : ℚ} (h : q ≤ 1) : roundFinite q ≤ 1 := by
  have := roundFinite_mono h
  rwa [roundFinite_one] at this

theorem one_le_roundFinite {q : ℚ} (h : 1 ≤ q) : 1 ≤ roundFinite q := by
  have := roundFinite_mono h
  rwa [roundFinite_one] at this

/-- A quotient of finite Numbers that does not overflow. -/
theorem fdiv_fin {x y : ℚ} (hy : y ≠ 0) (h : |x / y| < overflowThreshold) :
    fdiv (JsNumber.fin x) (JsNumber.fin y) = JsNumber.fin (roundFinite (x / y)) := by
  simp only [fdiv, if_neg hy]
  exact round64_of_abs_lt h

/-- A difference `a - m` with `a ≤ m` is `-Infinity` or a finite Number that is not positive. -/
theorem fsub_fin_le {a m : ℚ} (h : a ≤ m) :
    fsub (JsNumber.fin a) (JsNumber.fin m) = JsNumber.negInf ∨
      fsub (JsNumber.fin a) (JsNumber.fin m) = JsNumber.fin (roundFinite (a - m)) ∧
        roundFinite (a - m) ≤ 0 := by
  simp only [fsub]
  unfold round64
  have hle : a - m ≤ 0 := sub_nonpos.2 h
  have hthr := overflowThreshold_pos
  rw [if_neg (by linarith)]
  by_cases hlow : a - m ≤ -overflowThreshold
  · left; rw [if_pos hlow]
  · right; rw [if_neg hlow]
    exact ⟨rfl, roundFinite_nonpos hle⟩

theorem fsub_self_fin (m : ℚ) : fsub (JsNumber.fin m) (JsNumber.fin m) = JsNumber.fin 0 := by
  simp only [fsub, sub_self]
  rw [round64_of_abs_lt (by rw [abs_zero]; linarith [overflowThreshold_pos]), roundFinite_zero]

/-! ### `Math.max` on finite Numbers -/

theorem foldl_jsMax_fin (qs : List ℚ) (a : ℚ) :
    (qs.map JsNumber.fin).foldl jsMax (JsNumber.fin a) = JsNumber.fin (qs.foldl max a) := by
  induction qs generalizing a with
  | nil => rfl
  | cons q t ih =>
    simp only [List.map_cons, List.foldl_cons, jsMax]
    exact ih (max a q)

theorem le_foldl_max (qs : List ℚ) (a : ℚ) : a ≤ qs.foldl max a := by
  induction qs generalizing a with
  | nil => exact le_rfl
  | cons q t ih =>
    simp only [List.foldl_cons]
    exact le_trans (le_max_left a q) (ih (max a q))

theorem mem_le_foldl_max (qs : List ℚ) (a : ℚ) : ∀ q ∈ qs, q ≤ qs.foldl max a := by
  induction qs generalizing a with
  | nil => intro q hq; cases hq
  | cons x t ih =>
    intro q hq
    simp only [List.foldl_cons]
    rcases List.mem_cons.1 hq with rfl | hq
    · exact le_trans (le_max_right a q) (le_foldl_max t (max a q))
    · exact ih (max a x) q hq

theorem foldl_max_mem (qs : List ℚ) (a : ℚ) : qs.foldl max a = a ∨ qs.foldl max a ∈ qs := by
  induction qs generalizing a with
  | nil => left; rfl
  | cons x t ih =>
    simp only [List.foldl_cons]
    rcases ih (max a x) with h | h
    · rcases max_choice a x with hm | hm
      · left; rw [h, hm]
      · right; rw [h, hm]; exact List.mem_cons_self _ _
    · right; exact List.mem_cons_of_mem _ h

/-- On a non-empty array of finite Numbers `Math.max` returns one of them, and none of them
exceeds it. -/
theorem mathMaxDouble_fin (qs : List ℚ) (hne : qs ≠ []) :
    ∃ m, mathMaxDouble (qs.map JsNumber.fin) = JsNumber.fin m ∧ m ∈ qs ∧ ∀ q ∈ qs, q ≤ m := by
  cases qs with
  | nil => exact absurd rfl hne
  | cons x t =>
    refine ⟨t.foldl max x, ?_, ?_, ?_⟩
    · simp only [mathMaxDouble, List.map_cons, List.foldl_cons, jsMax]
      exact foldl_jsMax_fin t x
    · rcases foldl_max_mem t x with h | h
      · rw [h]; exact List.mem_cons_self _ _
      · exact List.mem_cons_of_mem _ h
    · intro q hq
      rcases List.mem_cons.1 hq with rfl | hq
      · exact le_foldl_max t q
      · exact mem_le_foldl_max t x q hq

/-- Relative and absolute error of rounding: half a unit in the last place of a normal
number, half the subnormal spacing otherwise. -/
theorem roundMagnitude_error {x : ℚ} (hx : 0 ≤ x) :
    |roundMagnitude x - x| ≤ x / 2 ^ 53 + 1 / 2 ^ 1075 := by
  rcases hx.eq_or_lt with h0 | hpos
  · rw [← h0, roundMagnitude_zero]; norm_num
  have h := roundMagnitude_sub_le x
  have hq : quantum x / 2 ≤ x / 2 ^ 53 + 1 / 2 ^ 1075 := by
    unfold quantum
    by_cases hL : -1022 ≤ Int.log 2 x
    · rw [max_eq_left hL]
      have hlow : (2 : ℚ) ^ Int.log 2 x ≤ x := by
        exact_mod_cast Int.zpow_log_le_self (b := 2) (by norm_num) hpos
      have e : (2 : ℚ) ^ (Int.log 2 x - 52) / 2 = (2 : ℚ) ^ Int.log 2 x / 2 ^ 53 := by
        rw [zpow_sub₀ (by norm_num : (2 : ℚ) ≠ 0)]
        norm_num
        ring
      rw [e]
      have : (2 : ℚ) ^ Int.log 2 x / 2 ^ 53 ≤ x / 2 ^ 53 :=
        div_le_div_of_nonneg_right hlow (by positivity)
      have hη : (0 : ℚ) ≤ 1 / 2 ^ 1075 := by positivity
      linarith
    · push_neg at hL
      rw [max_eq_right hL.le]
      have e : (2 : ℚ) ^ ((-1022 : ℤ) - 52) / 2 = 1 / 2 ^ 1075 := by
        norm_num [zpow_neg]
      rw [e]
      have : (0 : ℚ) ≤ x / 2 ^ 53 := by positivity
      linarith
  exact le_trans h hq

theorem roundFinite_error (q : ℚ) : |roundFinite q - q| ≤ |q| / 2 ^ 53 + 1 / 2 ^ 1075 := by
  unfold roundFinite
  by_cases hq : 0 ≤ q
  · rw [if_pos hq, abs_of_nonneg hq]
    exact roundMagnitude_error hq
  · rw [if_neg hq]
    push_neg at hq
    have h := roundMagnitude_error (neg_nonneg.2 hq.le)
    rw [abs_of_neg hq]
    have e : -roundMagnitude (-q) - q = -(roundMagnitude (-q) - -q) := by ring
    rw [e, abs_neg]
    exact h

/-! ### The stages of `softmax` on finite Numbers -/

theorem shiftedExp_self (e : ℚ → JsNumber) (m : ℚ) : shiftedExp e m m = JsNumber.fin 1 := by
  unfold shiftedExp
  rw [fsub_self_fin]
  simp [mathExp]

theorem shiftedExp_unit {e : ℚ → JsNumber} (he : ExpUnitRange e) {a m : ℚ} (h : a ≤ m) :
    ∃ y, shiftedExp e m a = JsNumber.fin y ∧ 0 ≤ y ∧ y ≤ 1 := by
  unfold shiftedExp
  rcases fsub_fin_le h with h1 | ⟨h1, h2⟩
  · rw [h1]; exact ⟨0, rfl, le_rfl, zero_le_one⟩
  · rw [h1]
    by_cases h0 : roundFinite (a - m) = 0
    · exact ⟨1, by simp [mathExp, h0], zero_le_one, le_rfl⟩
    · have hneg : roundFinite (a - m) < 0 := lt_of_le_of_ne h2 h0
      obtain ⟨y, hy, hy0, hy1⟩ := he _ hneg
      exact ⟨y, by simp [mathExp, h0, hy], hy0, hy1⟩

theorem shiftedExp_mono {e : ℚ → JsNumber} (he : ExpUnitRange e) (hm : ExpMonotone e)
    {a b m ya yb : ℚ} (hab : a ≤ b) (hbm : b ≤ m)
    (ha : shiftedExp e m a = JsNumber.fin ya) (hb : shiftedExp e m b = JsNumber.fin yb) :
    ya ≤ yb := by
  have hthr := overflowThreshold_pos
  have hle : a - m ≤ b - m := by linarith
  have hb0 : b - m ≤ 0 := by linarith
  obtain ⟨ya', hya', hya0, hya1⟩ := shiftedExp_unit he (le_trans hab hbm)
  obtain ⟨yb', hyb', hyb0, hyb1⟩ := shiftedExp_unit he hbm
  have eya : ya' = ya := by rw [hya'] at ha; exact JsNumber.fin.inj ha
  have eyb : yb' = yb := by rw [hyb'] at hb; exact JsNumber.fin.inj hb
  subst eya eyb
  unfold shiftedExp at ha hb
  simp only [fsub] at ha hb
  unfold round64 at ha hb
  rw [if_neg (by linarith)] at ha hb
  by_cases hlowa : a - m ≤ -overflowThreshold
  · rw [if_pos hlowa] at ha
    simp only [mathExp] at ha
    have : (0 : ℚ) = ya' := JsNumber.fin.inj ha
    rw [← this]; exact hyb0
  · have hlowb : ¬ b - m ≤ -overflowThreshold := fun h => hlowa (le_trans hle h)
    rw [if_neg hlowa] at ha
    rw [if_neg hlowb] at hb
    have hr : roundFinite (a - m) ≤ roundFinite (b - m) := roundFinite_mono hle
    have hrb : roundFinite (b - m) ≤ 0 := roundFinite_nonpos hb0
    simp only [mathExp] at ha hb
    by_cases hb00 : roundFinite (b - m) = 0
    · rw [if_pos hb00] at hb
      have : (1 : ℚ) = yb' := JsNumber.fin.inj hb
      rw [← this]; exact hya1
    · have hbneg : roundFinite (b - m) < 0 := lt_of_le_of_ne hrb hb00
      have ha00 : roundFinite (a - m) ≠ 0 := by
        intro h; rw [h] at hr; exact absurd hr (not_le.2 hbneg)
      rw [if_neg hb00] at hb
      rw [if_neg ha00] at ha
      exact hm _ _ _ _ hr hbneg ha hb

theorem fadd_sumAtLeast {c : ℚ} (hc0 : 0 ≤ c) (hc : roundFinite c = c) {x : JsNumber}
    (hx : SumAtLeast c x) {y : ℚ} (hy : 0 ≤ y) : SumAtLeast c (fadd x (JsNumber.fin y)) := by
  rcases hx with rfl | ⟨S, hS, rfl⟩
  · left; rfl
  · simp only [fadd]
    unfold round64
    by_cases hov : overflowThreshold ≤ S + y
    · left; rw [if_pos hov]
    · right
      have hthr := overflowThreshold_pos
      rw [if_neg hov, if_neg (by linarith)]
      refine ⟨_, ?_, rfl⟩
      have := roundFinite_mono (show c ≤ S + y by linarith)
      rwa [hc] at this

theorem foldl_fadd_sumAtLeast {c : ℚ} (hc0 : 0 ≤ c) (hc : roundFinite c = c) (es : List ℚ)
    (hes : ∀ y ∈ es, 0 ≤ y) (x : JsNumber) (hx : SumAtLeast c x) :
    SumAtLeast c ((es.map JsNumber.fin).foldl (fun a b => fadd a b) x) := by
  induction es generalizing x with
  | nil => exact hx
  | cons y t ih =>
    simp only [List.map_cons, List.foldl_cons]
    exact ih (fun z hz => hes z (List.mem_cons_of_mem _ hz)) _
      (fadd_sumAtLeast hc0 hc hx (hes y (List.mem_cons_self _ _)))

theorem sumAtLeast_mono {c d : ℚ} (h : c ≤ d) {x : JsNumber} (hx : SumAtLeast d x) :
    SumAtLeast c x := by
  rcases hx with h1 | ⟨S, hS, h1⟩
  · exact Or.inl h1
  · exact Or.inr ⟨S, le_trans h hS, h1⟩

/-- The sum of non-negative finite Numbers, one of which is 1, is `+Infinity` or at least 1. -/
theorem foldl_fadd_one_mem (es : List ℚ) (hes : ∀ y ∈ es, 0 ≤ y) (h1 : (1 : ℚ) ∈ es)
    (x : JsNumber) (hx : SumAtLeast 0 x) :
    SumAtLeast 1 ((es.map JsNumber.fin).foldl (fun a b => fadd a b) x) := by
  induction es generalizing x with
  | nil => cases h1
  | cons y t ih =>
    simp only [List.map_cons, List.foldl_cons]
    have hy : 0 ≤ y := hes y (List.mem_cons_self _ _)
    have ht : ∀ z ∈ t, 0 ≤ z := fun z hz => hes z (List.mem_cons_of_mem _ hz)
    rcases List.mem_cons.1 h1 with h | h
    · apply foldl_fadd_sumAtLeast zero_le_one roundFinite_one t ht
      rcases hx with rfl | ⟨S, hS, rfl⟩
      · left; rfl
      · simp only [fadd]
        unfold round64
        by_cases hov : overflowThreshold ≤ S + y
        · left; rw [if_pos hov]
        · right
          have hthr := overflowThreshold_pos
          rw [if_neg hov, if_neg (by linarith)]
          exact ⟨_, one_le_roundFinite (by linarith), rfl⟩
    · exact ih ht h _ (fadd_sumAtLeast le_rfl roundFinite_zero hx hy)

/-- Dividing a finite Number between 0 and 1 by such a sum gives a finite Number between 0
and 1. -/
theorem fdiv_unit {y : ℚ} (hy0 : 0 ≤ y) (hy1 : y ≤ 1) {x : JsNumber} (hx : SumAtLeast 1 x) :
    ∃ p, fdiv (JsNumber.fin y) x = JsNumber.fin p ∧ 0 ≤ p ∧ p ≤ 1 := by
  rcases hx with rfl | ⟨S, hS, rfl⟩
  · exact ⟨0, rfl, le_rfl, zero_le_one⟩
  · have hSpos : 0 < S := by linarith
    have hq0 : 0 ≤ y / S := div_nonneg hy0 hSpos.le
    have hq1 : y / S ≤ 1 := by rw [div_le_one hSpos]; linarith
    have hthr := overflowThreshold_pos
    refine ⟨roundFinite (y / S), fdiv_fin hSpos.ne.symm ?_, roundFinite_nonneg hq0,
      roundFinite_le_one hq1⟩
    rw [abs_of_nonneg hq0]; linarith

theorem fdiv_mono {y z : ℚ} (hy0 : 0 ≤ y) (hyz : y ≤ z) (hz1 : z ≤ 1) {x : JsNumber}
    (hx : SumAtLeast 1 x) {p q : ℚ} (hp : fdiv (JsNumber.fin y) x = JsNumber.fin p)
    (hq : fdiv (JsNumber.fin z) x = JsNumber.fin q) : p ≤ q := by
  rcases hx with rfl | ⟨S, hS, rfl⟩
  · simp only [fdiv] at hp hq
    rw [← JsNumber.fin.inj hp, ← JsNumber.fin.inj hq]
  · have hSpos : 0 < S := by linarith
    have hthr := overflowThreshold_pos
    have hb : ∀ w : ℚ, 0 ≤ w → w ≤ 1 → |w / S| < overflowThreshold := by
      intro w hw0 hw1
      have hq0 : 0 ≤ w / S := div_nonneg hw0 hSpos.le
      have hq1 : w / S ≤ 1 := by rw [div_le_one hSpos]; linarith
      rw [abs_of_nonneg hq0]; linarith
    rw [fdiv_fin hSpos.ne.symm (hb y hy0 (le_trans hyz hz1))] at hp
    rw [fdiv_fin hSpos.ne.symm (hb z (le_trans hy0 hyz) hz1)] at hq
    rw [← JsNumber.fin.inj hp, ← JsNumber.fin.inj hq]
    exact roundFinite_mono (div_le_div_of_nonneg_right hyz hSpos.le)

/-! ### `softmax` on Numbers -/

/-- Unfolding of `softmaxDouble` into one `map` over the input: every output is computed
from the input at the same position, `maxLogit` and `sumExps`. -/
theorem softmaxDouble_eq_map (e : ℚ → JsNumber) (logits : List JsNumber) (temp : JsNumber) :
    softmaxDouble e logits temp =
      logits.map (fun l =>
        fdiv (mathExp e (fsub (fdiv l temp) (mathMaxDouble (logits.map (fun l => fdiv l temp)))))
          ((logits.map (fun l =>
            mathExp e (fsub (fdiv l temp)
              (mathMaxDouble (logits.map (fun l => fdiv l temp)))))).foldl
            (fun a b => fadd a b) (JsNumber.fin 0))) := by
  simp only [softmaxDouble, List.map_map]
  rfl

/-- On finite scores whose quotients by the temperature do not overflow, `maxLogit` is one of
the rounded quotients and every output is the rounded quotient of a shifted exponential by
their sum. -/
theorem softmaxDouble_finite (e : ℚ → JsNumber) (scores : List ℚ) (T : ℚ) (hne : scores ≠ [])
    (hT : T ≠ 0) (hno : ∀ s ∈ scores, |s / T| < overflowThreshold) :
    ∃ m, (∃ s ∈ scores, roundFinite (s / T) = m) ∧ (∀ s ∈ scores, roundFinite (s / T) ≤ m) ∧
      softmaxDouble e (scores.map JsNumber.fin) (JsNumber.fin T) =
        scores.map (fun s =>
          fdiv (shiftedExp e m (roundFinite (s / T)))
            ((scores.map (fun s => shiftedExp e m (roundFinite (s / T)))).foldl
              (fun a b => fadd a b) (JsNumber.fin 0))) := by
  have hadj : (scores.map JsNumber.fin).map (fun l => fdiv l (JsNumber.fin T)) =
      (scores.map (fun s => roundFinite (s / T))).map JsNumber.fin := by
    rw [List.map_map, List.map_map]
    apply List.map_congr_left
    intro s hs
    exact fdiv_fin hT (hno s hs)
  have hne' : scores.map (fun s => roundFinite (s / T)) ≠ [] := by
    simpa using hne
  obtain ⟨m, hm, hmem, hmax⟩ := mathMaxDouble_fin _ hne'
  refine ⟨m, ?_, ?_, ?_⟩
  · rcases List.mem_map.1 hmem with ⟨s, hs, rfl⟩
    exact ⟨s, hs, rfl⟩
  · intro s hs
    exact hmax _ (List.mem_map.2 ⟨s, hs, rfl⟩)
  · simp only [softmaxDouble]
    rw [hadj, hm]
    simp only [List.map_map]
    rfl

/-- Under the assumption on `Math.exp` the entries of `exps` are finite Numbers between 0
and 1, and their sum is `+Infinity` or at least 1. -/
theorem sumExps_atLeast_one {e : ℚ → JsNumber} (he : ExpUnitRange e) (scores : List ℚ)
    (T m : ℚ) (hmem : ∃ s ∈ scores, roundFinite (s / T) = m)
    (hmax : ∀ s ∈ scores, roundFinite (s / T) ≤ m) :
    SumAtLeast 1 ((scores.map (fun s => shiftedExp e m (roundFinite (s / T)))).foldl
      (fun a b => fadd a b) (JsNumber.fin 0)) := by
  have hfin : scores.map (fun s => shiftedExp e m (roundFinite (s / T))) =
      (scores.map (fun s => (shiftedExp e m (roundFinite (s / T))).toRat)).map
        JsNumber.fin := by
    rw [List.map_map]
    apply List.map_congr_left
    intro s hs
    obtain ⟨y, hy, _, _⟩ := shiftedExp_unit he (hmax s hs)
    simp only [Function.comp_apply, hy, JsNumber.toRat]
  rw [hfin]
  apply foldl_fadd_one_mem
  · intro y hy
    rcases List.mem_map.1 hy with ⟨s, hs, rfl⟩
    obtain ⟨y, hy, hy0, _⟩ := shiftedExp_unit he (hmax s hs)
    rw [hy]; exact hy0
  · obtain ⟨s, hs, hsm⟩ := hmem
    apply List.mem_map.2
    refine ⟨s, hs, ?_⟩
    rw [hsm, shiftedExp_self]
    rfl
  · exact Or.inr ⟨0, le_rfl, rfl⟩

/-- The array `[2 ^ 1023, 0]` at temperature `1 / 2`: the first quotient overflows to
`+Infinity`, which is `maxLogit`; `Infinity - Infinity` is `NaN` and so is every output. -/
theorem softmaxDouble_overflow (e : ℚ → JsNumber) :
    softmaxDouble e [JsNumber.fin (2 ^ 1023), JsNumber.fin 0] (JsNumber.fin (1 / 2)) =
      [JsNumber.nan, JsNumber.nan] := by
  have h1 : fdiv (JsNumber.fin (2 ^ 1023)) (JsNumber.fin (1 / 2)) = JsNumber.posInf := by
    simp only [fdiv]
    rw [if_neg (by norm_num)]
    unfold round64 overflowThreshold
    rw [if_pos (by norm_num)]
  have h2 : fdiv (JsNumber.fin 0) (JsNumber.fin (1 / 2)) = JsNumber.fin 0 := by
    rw [fdiv_fin (by norm_num) (by rw [zero_div, abs_zero]; linarith [overflowThreshold_pos]),
      zero_div, roundFinite_zero]
  simp only [softmaxDouble, List.map_cons, List.map_nil, h1, h2]
  simp only [mathMaxDouble, List.foldl_cons, List.foldl_nil, jsMax, fsub, mathExp, fadd, fdiv,
    List.map_cons, List.map_nil]

theorem sampleExp_unitRange : ExpUnitRange sampleExp := by
  intro x hx
  have hpos : (0 : ℚ) < 1 - x := by linarith
  by_cases hu : x ≤ -746
  · exact ⟨0, by simp [sampleExp, hu], le_rfl, zero_le_one⟩
  · refine ⟨roundFinite (1 / (1 - x)), by simp [sampleExp, hu, hx], ?_, ?_⟩
    · exact roundFinite_nonneg (div_nonneg zero_le_one hpos.le)
    · apply roundFinite_le_one
      rw [div_le_one hpos]; linarith

theorem sampleExp_monotone : ExpMonotone sampleExp := by
  intro x y a b hxy hy ha hb
  have hx : x < 0 := lt_of_le_of_lt hxy hy
  obtain ⟨b', hb', hb0, _⟩ := sampleExp_unitRange y hy
  have eb : b' = b := by rw [hb'] at hb; exact JsNumber.fin.inj hb
  subst eb
  by_cases hux : x ≤ -746
  · simp only [sampleExp, if_pos hux] at ha
    rw [← JsNumber.fin.inj ha]; exact hb0
  · have huy : ¬ y ≤ -746 := fun h => hux (le_trans hxy h)
    simp only [sampleExp, if_neg hux, if_pos hx] at ha
    simp only [sampleExp, if_neg huy, if_pos hy] at hb
    rw [← JsNumber.fin.inj ha, ← JsNumber.fin.inj hb]
    apply roundFinite_mono
    apply div_le_div_of_nonneg_left zero_le_one (by linarith) (by linarith)

theorem sampleExp_underflow : ExpUnderflow sampleExp := by
  intro x hx
  simp [sampleExp, hx]

/-! ### Contract properties of `softmax` on Numbers -/

/-- C6 (as stated, refuted): on the non-empty array `[2 ^ 1023, 0]` at the temperature
`1 / 2 > 0` every value returned by `softmax` is `NaN`, whatever `Math.exp` computes, so
the values do not lie in `[0, 1]`. -/
theorem softmaxDouble_overflow_not_in_unit_interval :
    (0 : ℚ) < 1 / 2 ∧
      ∀ e : ℚ → JsNumber,
        softmaxDouble e ([2 ^ 1023, 0].map JsNumber.fin) (JsNumber.fin (1 / 2)) =
            [JsNumber.nan, JsNumber.nan] ∧
          ¬ ∀ p ∈ softmaxDouble e ([2 ^ 1023, 0].map JsNumber.fin) (JsNumber.fin (1 / 2)),
              ∃ q : ℚ, p = JsNumber.fin q ∧ 0 ≤ q ∧ q ≤ 1 := by
  refine ⟨by norm_num, fun e => ⟨softmaxDouble_overflow e, fun h => ?_⟩⟩
  have hmem : JsNumber.nan ∈
      softmaxDouble e ([2 ^ 1023, 0].map JsNumber.fin) (JsNumber.fin (1 / 2)) := by
    rw [show ([2 ^ 1023, 0] : List ℚ).map JsNumber.fin =
      [JsNumber.fin (2 ^ 1023), JsNumber.fin 0] from rfl, softmaxDouble_overflow]
    exact List.mem_cons_self _ _
  obtain ⟨q, hq, _⟩ := h _ hmem
  cases hq

/-- C6 (amended): for every non-empty list of finite scores and every temperature `T > 0`
such that no quotient `score / T` overflows, every value returned by `softmax` is a finite
Number in `[0, 1]`, provided `Math.exp` maps negative arguments into `[0, 1]`. -/
theorem softmaxDouble_mem_unit_interval (e : ℚ → JsNumber) (he : ExpUnitRange e)
    (scores : List ℚ) (T : ℚ) (hne : scores ≠ []) (hT : 0 < T)
    (hno : ∀ s ∈ scores, |s / T| < overflowThreshold) :
    ∀ p ∈ softmaxDouble e (scores.map JsNumber.fin) (JsNumber.fin T),
      ∃ q : ℚ, p = JsNumber.fin q ∧ 0 ≤ q ∧ q ≤ 1 := by
  obtain ⟨m, hmem, hmax, hout⟩ := softmaxDouble_finite e scores T hne hT.ne.symm hno
  have hsum := sumExps_atLeast_one he scores T m hmem hmax
  intro p hp
  rw [hout] at hp
  rcases List.mem_map.1 hp with ⟨s, hs, rfl⟩
  obtain ⟨y, hy, hy0, hy1⟩ := shiftedExp_unit he (hmax s hs)
  rw [hy]
  exact fdiv_unit hy0 hy1 hsum

theorem softmaxDouble_mem_unit_interval_witness :
    ExpUnitRange sampleExp ∧ ([4, 7 / 2] : List ℚ) ≠ [] ∧ (0 : ℚ) < 1 ∧
      (∀ s ∈ ([4, 7 / 2] : List ℚ), |s / 1| < overflowThreshold) ∧
      ∀ p ∈ softmaxDouble sampleExp (([4, 7 / 2] : List ℚ).map JsNumber.fin) (JsNumber.fin 1),
        ∃ q : ℚ, p = JsNumber.fin q ∧ 0 ≤ q ∧ q ≤ 1 :=
  have hno : ∀ s ∈ ([4, 7 / 2] : List ℚ), |s / 1| < overflowThreshold := by
    intro s hs
    simp only [List.mem_cons, List.mem_singleton, List.not_mem_nil, or_false] at hs
    rcases hs with rfl | rfl <;> (unfold overflowThreshold; norm_num [abs_lt])
  ⟨sampleExp_unitRange, by simp, by norm_num, hno,
    softmaxDouble_mem_unit_interval sampleExp sampleExp_unitRange [4, 7 / 2] 1 (by simp)
      (by norm_num) hno⟩

/-- C5 (as stated, refuted): on `[2 ^ 1023, 0]` at the temperature `1 / 2 > 0` the score
at position 0 exceeds the one at position 1, yet both returned values are `NaN`, whatever
`Math.exp` computes, and `NaN ≥ NaN` is false. -/
theorem softmaxDouble_overflow_not_monotone :
    (0 : ℚ) < 1 / 2 ∧ (0 : ℚ) < 2 ^ 1023 ∧
      ∀ e : ℚ → JsNumber,
        softmaxDouble e ([2 ^ 1023, 0].map JsNumber.fin) (JsNumber.fin (1 / 2)) =
            [JsNumber.nan, JsNumber.nan] ∧
          ¬ ∃ pa pb : ℚ,
              (softmaxDouble e ([2 ^ 1023, 0].map JsNumber.fin) (JsNumber.fin (1 / 2)))[0]? =
                  some (JsNumber.fin pa) ∧
                (softmaxDouble e ([2 ^ 1023, 0].map JsNumber.fin) (JsNumber.fin (1 / 2)))[1]? =
                  some (JsNumber.fin pb) ∧
                pb ≤ pa := by
  refine ⟨by norm_num, by norm_num, fun e => ⟨softmaxDouble_overflow e, ?_⟩⟩
  rintro ⟨pa, pb, ha, _, _⟩
  rw [show ([2 ^ 1023, 0] : List ℚ).map JsNumber.fin =
    [JsNumber.fin (2 ^ 1023), JsNumber.fin 0] from rfl, softmaxDouble_overflow] at ha
  simp at ha

/-- C5 (amended): for every list of finite scores, every temperature `T > 0` such that no
quotient `score / T` overflows, and every two positions `a`, `b` with
`score_a > score_b`, the values returned at `a` and `b` are finite and the one at `a` is at
least the one at `b`, provided `Math.exp` maps negative arguments into `[0, 1]` and is
non-decreasing there. -/
theorem softmaxDouble_monotone (e : ℚ → JsNumber) (he : ExpUnitRange e) (hm : ExpMonotone e)
    (scores : List ℚ) (T : ℚ) (hT : 0 < T) (hno : ∀ s ∈ scores, |s / T| < overflowThreshold)
    (a b : ℕ) (ha : a < scores.length) (hb : b < scores.length) (hab : scores[b] < scores[a]) :
    ∃ pa pb : ℚ,
      (softmaxDouble e (scores.map JsNumber.fin) (JsNumber.fin T))[a]? =
          some (JsNumber.fin pa) ∧
        (softmaxDouble e (scores.map JsNumber.fin) (JsNumber.fin T))[b]? =
          some (JsNumber.fin pb) ∧
        pb ≤ pa := by
  have hne : scores ≠ [] := by
    intro h
    rw [h] at ha
    exact absurd ha (by simp)
  obtain ⟨m, hmem, hmax, hout⟩ := softmaxDouble_finite e scores T hne hT.ne.symm hno
  have hsum := sumExps_atLeast_one he scores T m hmem hmax
  have hsa : scores[a] ∈ scores := List.getElem_mem ha
  have hsb : scores[b] ∈ scores := List.getElem_mem hb
  obtain ⟨ya, hya, hya0, hya1⟩ := shiftedExp_unit he (hmax _ hsa)
  obtain ⟨yb, hyb, hyb0, hyb1⟩ := shiftedExp_unit he (hmax _ hsb)
  obtain ⟨pa, hpa, _, _⟩ := fdiv_unit hya0 hya1 hsum
  obtain ⟨pb, hpb, _, _⟩ := fdiv_unit hyb0 hyb1 hsum
  have hadj : roundFinite (scores[b] / T) ≤ roundFinite (scores[a] / T) :=
    roundFinite_mono (div_le_div_of_nonneg_right hab.le hT.le)
  have hy : yb ≤ ya := shiftedExp_mono he hm hadj (hmax _ hsa) hyb hya
  refine ⟨pa, pb, ?_, ?_, fdiv_mono hyb0 hy hya1 hsum hpb hpa⟩
  · rw [hout, List.getElem?_map, List.getElem?_eq_getElem ha, Option.map_some', hya, hpa]
  · rw [hout, List.getElem?_map, List.getElem?_eq_getElem hb, Option.map_some', hyb, hpb]

theorem softmaxDouble_monotone_witness :
    ExpUnitRange sampleExp ∧ ExpMonotone sampleExp ∧ (0 : ℚ) < 1 ∧
      (∀ s ∈ ([4, 7 / 2] : List ℚ), |s / 1| < overflowThreshold) ∧ (7 / 2 : ℚ) < 4 ∧
      ∃ pa pb : ℚ,
        (softmaxDouble sampleExp (([4, 7 / 2] : List ℚ).map JsNumber.fin) (JsNumber.fin 1))[0]? =
            some (JsNumber.fin pa) ∧
          (softmaxDouble sampleExp (([4, 7 / 2] : List ℚ).map JsNumber.fin)
              (JsNumber.fin 1))[1]? = some (JsNumber.fin pb) ∧
          pb ≤ pa :=
  have hno : ∀ s ∈ ([4, 7 / 2] : List ℚ), |s / 1| < overflowThreshold := by
    intro s hs
    simp only [List.mem_cons, List.mem_singleton, List.not_mem_nil, or_false] at hs
    rcases hs with rfl | rfl <;> (unfold overflowThreshold; norm_num [abs_lt])
  ⟨sampleExp_unitRange, sampleExp_monotone, by norm_num, hno, by norm_num,
    softmaxDouble_monotone sampleExp sampleExp_unitRange sampleExp_monotone [4, 7 / 2] 1
      (by norm_num) hno 0 1 (by simp) (by simp) (by norm_num)⟩

/-! ### Accumulated rounding error of the sum -/

/-- One addition of the running sum: no overflow, and the invariant on the accumulated error
is kept.  `u` and `η` bound the relative and the absolute rounding error. -/
theorem fadd_error_step {u η : ℚ} (hu0 : 0 ≤ u) (hN : 2 * 1000000 * u ≤ 1) (hη0 : 0 ≤ η)
    (hηN : 2 * 1000000 * η ≤ 1) (herr : ∀ q : ℚ, |roundFinite q - q| ≤ |q| * u + η)
    (k : ℕ) (hk : k < 1000000) (S E y : ℚ) (hE0 : 0 ≤ E) (hEk : E ≤ k) (hS0 : 0 ≤ S)
    (hy0 : 0 ≤ y) (hy1 : y ≤ 1)
    (hlo : E * (1 - k * u) - k * η ≤ S) (hhi : S ≤ E * (1 + 2 * k * u) + 2 * k * η) :
    fadd (JsNumber.fin S) (JsNumber.fin y) = JsNumber.fin (roundFinite (S + y)) ∧
      0 ≤ roundFinite (S + y) ∧
      (E + y) * (1 - ((k + 1 : ℕ) : ℚ) * u) - ((k + 1 : ℕ) : ℚ) * η ≤ roundFinite (S + y) ∧
      roundFinite (S + y) ≤
        (E + y) * (1 + 2 * ((k + 1 : ℕ) : ℚ) * u) + 2 * ((k + 1 : ℕ) : ℚ) * η := by
  have hkq : (k : ℚ) ≤ 1000000 := by exact_mod_cast hk.le
  have hk0 : (0 : ℚ) ≤ k := Nat.cast_nonneg k
  have hku : 2 * (k : ℚ) * u ≤ 1 := by
    have : 2 * (k : ℚ) * u ≤ 2 * 1000000 * u :=
      mul_le_mul_of_nonneg_right (by linarith) hu0
    linarith
  have hkη : 2 * (k : ℚ) * η ≤ 1 := by
    have : 2 * (k : ℚ) * η ≤ 2 * 1000000 * η :=
      mul_le_mul_of_nonneg_right (by linarith) hη0
    linarith
  have hku0 : 0 ≤ 2 * (k : ℚ) * u := mul_nonneg (mul_nonneg (by norm_num) hk0) hu0
  have hkη0 : 0 ≤ 2 * (k : ℚ) * η := mul_nonneg (mul_nonneg (by norm_num) hk0) hη0
  have hu1 : u ≤ 1 := by linarith
  have hx0 : 0 ≤ S + y := add_nonneg hS0 hy0
  -- the exact sum stays far below the overflow threshold
  have hEbound : E * (1 + 2 * k * u) ≤ k * 2 :=
    mul_le_mul hEk (by linarith) (by linarith) hk0
  have hxsmall : S + y ≤ 2 * 1000000 + 2 := by linarith
  have hthr : (2 * 1000000 + 2 : ℚ) < overflowThreshold := by
    unfold overflowThreshold; norm_num
  have hadd : fadd (JsNumber.fin S) (JsNumber.fin y) = JsNumber.fin (roundFinite (S + y)) := by
    simp only [fadd]
    exact round64_of_abs_lt (by rw [abs_of_nonneg hx0]; linarith)
  have he := herr (S + y)
  rw [abs_of_nonneg hx0] at he
  have he' := abs_le.1 he
  refine ⟨hadd, roundFinite_nonneg hx0, ?_, ?_⟩
  · have h1 : (E * (1 - k * u) - k * η + y) * (1 - u) ≤ (S + y) * (1 - u) :=
      mul_le_mul_of_nonneg_right (by linarith) (by linarith)
    have hnn : 0 ≤ E * k * u ^ 2 + y * k * u + k * η * u :=
      add_nonneg (add_nonneg (mul_nonneg (mul_nonneg hE0 hk0) (sq_nonneg u))
        (mul_nonneg (mul_nonneg hy0 hk0) hu0)) (mul_nonneg (mul_nonneg hk0 hη0) hu0)
    have key : (E + y) * (1 - ((k + 1 : ℕ) : ℚ) * u) - ((k + 1 : ℕ) : ℚ) * η =
        (E * (1 - k * u) - k * η + y) * (1 - u) - η -
          (E * k * u ^ 2 + y * k * u + k * η * u) := by
      push_cast; ring
    rw [key]
    linarith [he'.1]
  · have h1 : (S + y) * (1 + u) ≤ (E * (1 + 2 * k * u) + 2 * k * η + y) * (1 + u) :=
      mul_le_mul_of_nonneg_right (by linarith) (by linarith)
    have h2k : 0 ≤ 1 - 2 * (k : ℚ) * u := by linarith
    have hnn : 0 ≤ E * u * (1 - 2 * k * u) + y * ((2 * k + 1) * u) + η * (1 - 2 * k * u) :=
      add_nonneg (add_nonneg (mul_nonneg (mul_nonneg hE0 hu0) h2k)
        (mul_nonneg hy0 (mul_nonneg (by linarith) hu0))) (mul_nonneg hη0 h2k)
    have key : (E + y) * (1 + 2 * ((k + 1 : ℕ) : ℚ) * u) + 2 * ((k + 1 : ℕ) : ℚ) * η =
        (E * (1 + 2 * k * u) + 2 * k * η + y) * (1 + u) + η +
          (E * u * (1 - 2 * k * u) + y * ((2 * k + 1) * u) + η * (1 - 2 * k * u)) := by
      push_cast; ring
    rw [key]
    linarith [he'.2]

/-- The running sum of at most a million values in `[0, 1]`: finite, and within a relative
error of `n * u` below and `2 * n * u` above of the exact sum (up to `n * η`). -/
theorem foldl_fadd_error {u η : ℚ} (hu0 : 0 ≤ u) (hN : 2 * 1000000 * u ≤ 1) (hη0 : 0 ≤ η)
    (hηN : 2 * 1000000 * η ≤ 1) (herr : ∀ q : ℚ, |roundFinite q - q| ≤ |q| * u + η)
    (es : List ℚ) (hes : ∀ y ∈ es, 0 ≤ y ∧ y ≤ 1) (k : ℕ) (S E : ℚ)
    (hk : k + es.length ≤ 1000000) (hE0 : 0 ≤ E) (hEk : E ≤ k) (hS0 : 0 ≤ S)
    (hlo : E * (1 - k * u) - k * η ≤ S) (hhi : S ≤ E * (1 + 2 * k * u) + 2 * k * η) :
    ∃ S' : ℚ, (es.map JsNumber.fin).foldl (fun a b => fadd a b) (JsNumber.fin S) =
        JsNumber.fin S' ∧ 0 ≤ S' ∧
      (E + es.sum) * (1 - ((k + es.length : ℕ) : ℚ) * u) - ((k + es.length : ℕ) : ℚ) * η ≤ S' ∧
      S' ≤ (E + es.sum) * (1 + 2 * ((k + es.length : ℕ) : ℚ) * u) +
        2 * ((k + es.length : ℕ) : ℚ) * η := by
  induction es generalizing k S E with
  | nil =>
    refine ⟨S, rfl, hS0, ?_, ?_⟩
    · simpa using hlo
    · simpa using hhi
  | cons y t ih =>
    have hy := hes y (List.mem_cons_self _ _)
    have hlen : (y :: t).length = t.length + 1 := rfl
    rw [hlen] at hk
    obtain ⟨hadd, hS1, hlo1, hhi1⟩ :=
      fadd_error_step hu0 hN hη0 hηN herr k (by omega) S E y hE0 hEk hS0 hy.1 hy.2 hlo hhi
    obtain ⟨S', hS', hS'0, hlo', hhi'⟩ :=
      ih (fun z hz => hes z (List.mem_cons_of_mem _ hz)) (k + 1) (roundFinite (S + y)) (E + y)
        (by omega) (by linarith [hy.1]) (by push_cast; linarith [hy.2]) hS1 hlo1 hhi1
    refine ⟨S', ?_, hS'0, ?_, ?_⟩
    · simp only [List.map_cons, List.foldl_cons, hadd]
      exact hS'
    · have e1 : E + (y :: t).sum = E + y + t.sum := by simp [add_assoc]
      have e2 : k + (y :: t).length = k + 1 + t.length := by simp; omega
      rw [e1, e2]; exact hlo'
    · have e1 : E + (y :: t).sum = E + y + t.sum := by simp [add_assoc]
      have e2 : k + (y :: t).length = k + 1 + t.length := by simp; omega
      rw [e1, e2]; exact hhi'

theorem sum_map_le_of_le (f : ℚ → ℚ) (c η : ℚ) (l : List ℚ)
    (h : ∀ y ∈ l, f y ≤ c * y + η) : (l.map f).sum ≤ c * l.sum + l.length * η := by
  induction l with
  | nil => simp
  | cons y t ih =>
    have h1 := h y (List.mem_cons_self _ _)
    have h2 := ih (fun z hz => h z (List.mem_cons_of_mem _ hz))
    simp only [List.map_cons, List.sum_cons, List.length_cons]
    push_cast
    linarith

theorem le_sum_map_of_le (f : ℚ → ℚ) (c η : ℚ) (l : List ℚ)
    (h : ∀ y ∈ l, c * y - η ≤ f y) : c * l.sum - l.length * η ≤ (l.map f).sum := by
  induction l with
  | nil => simp
  | cons y t ih =>
    have h1 := h y (List.mem_cons_self _ _)
    have h2 := ih (fun z hz => h z (List.mem_cons_of_mem _ hz))
    simp only [List.map_cons, List.sum_cons, List.length_cons]
    push_cast
    linarith

/-- The entries of `exps` as rationals. -/
theorem exps_eq_map_fin {e : ℚ → JsNumber} (he : ExpUnitRange e) (scores : List ℚ) (T m : ℚ)
    (hmax : ∀ s ∈ scores, roundFinite (s / T) ≤ m) :
    scores.map (fun s => shiftedExp e m (roundFinite (s / T))) =
      (scores.map (fun s => (shiftedExp e m (roundFinite (s / T))).toRat)).map
        JsNumber.fin := by
  rw [List.map_map]
  apply List.map_congr_left
  intro s hs
  obtain ⟨y, hy, _, _⟩ := shiftedExp_unit he (hmax s hs)
  simp only [Function.comp_apply, hy, JsNumber.toRat]

/-- C1 (as stated, refuted): on the non-empty array `[2 ^ 1023, 0]` at the temperature
`1 / 2 > 0` every value returned by `softmax` is `NaN`, whatever `Math.exp` computes, so
the returned values are not numbers whose sum is within `1e-9` of 1. -/
theorem softmaxDouble_overflow_sum_not_one :
    (0 : ℚ) < 1 / 2 ∧
      ∀ e : ℚ → JsNumber,
        softmaxDouble e ([2 ^ 1023, 0].map JsNumber.fin) (JsNumber.fin (1 / 2)) =
            [JsNumber.nan, JsNumber.nan] ∧
          ¬ ∃ ps : List ℚ,
              softmaxDouble e ([2 ^ 1023, 0].map JsNumber.fin) (JsNumber.fin (1 / 2)) =
                  ps.map JsNumber.fin ∧
                |ps.sum - 1| ≤ 1 / 10 ^ 9 := by
  refine ⟨by norm_num, fun e => ⟨softmaxDouble_overflow e, ?_⟩⟩
  rintro ⟨ps, hps, _⟩
  rw [show ([2 ^ 1023, 0] : List ℚ).map JsNumber.fin =
    [JsNumber.fin (2 ^ 1023), JsNumber.fin 0] from rfl, softmaxDouble_overflow] at hps
  cases ps with
  | nil => simp at hps
  | cons p t => simp at hps

/-- C1 (amended): for every non-empty list of at most 1000000 finite scores and every
temperature `T > 0` such that no quotient `score / T` overflows, the values returned by
`softmax` are finite Numbers whose exact sum is within `1e-9` of 1, provided `Math.exp`
maps negative arguments into `[0, 1]`. -/
theorem softmaxDouble_sum_near_one (e : ℚ → JsNumber) (he : ExpUnitRange e)
    (scores : List ℚ) (T : ℚ) (hne : scores ≠ []) (hT : 0 < T)
    (hno : ∀ s ∈ scores, |s / T| < overflowThreshold) (hlen : scores.length ≤ 1000000) :
    ∃ ps : List ℚ,
      softmaxDouble e (scores.map JsNumber.fin) (JsNumber.fin T) = ps.map JsNumber.fin ∧
        |ps.sum - 1| ≤ 1 / 10 ^ 9 := by
  obtain ⟨m, hmem, hmax, hout⟩ := softmaxDouble_finite e scores T hne hT.ne.symm hno
  -- the entries of `exps`
  set ys : List ℚ := scores.map (fun s => (shiftedExp e m (roundFinite (s / T))).toRat)
    with hys
  have hexps := exps_eq_map_fin he scores T m hmax
  rw [← hys] at hexps
  have hys01 : ∀ y ∈ ys, 0 ≤ y ∧ y ≤ 1 := by
    intro y hy
    rcases List.mem_map.1 hy with ⟨s, hs, rfl⟩
    obtain ⟨y, hy, hy0, hy1⟩ := shiftedExp_unit he (hmax s hs)
    rw [hy]; exact ⟨hy0, hy1⟩
  have hone : (1 : ℚ) ∈ ys := by
    obtain ⟨s, hs, hsm⟩ := hmem
    apply List.mem_map.2
    refine ⟨s, hs, ?_⟩
    rw [hsm, shiftedExp_self]
    rfl
  have hE1 : 1 ≤ ys.sum := List.single_le_sum (fun y hy => (hys01 y hy).1) 1 hone
  have hylen : ys.length = scores.length := by rw [hys, List.length_map]
  have hnq : (ys.length : ℚ) ≤ 1000000 := by rw [hylen]; exact_mod_cast hlen
  have hn0 : (0 : ℚ) ≤ ys.length := Nat.cast_nonneg _
  -- the rounding error constants
  have herr : ∀ q : ℚ, |roundFinite q - q| ≤ |q| * (1 / 2 ^ 53) + 1 / 2 ^ 1075 := by
    intro q
    have := roundFinite_error q
    rwa [div_eq_mul_one_div] at this
  have hu0 : (0 : ℚ) ≤ 1 / 2 ^ 53 := by positivity
  have hη0 : (0 : ℚ) ≤ 1 / 2 ^ 1075 := by positivity
  have hN : 2 * 1000000 * (1 / 2 ^ 53 : ℚ) ≤ 1 := by norm_num
  have hηN : 2 * 1000000 * (1 / 2 ^ 1075 : ℚ) ≤ 1 := by norm_num
  -- the sum
  obtain ⟨S, hS, hS0, hlo, hhi⟩ :=
    foldl_fadd_error hu0 hN hη0 hηN herr ys hys01 0 0 0 (by rw [hylen]; omega) le_rfl
      (by simp) le_rfl (by simp) (by simp)
  simp only [zero_add, Nat.cast_zero] at hlo hhi
  have hS1 : 1 ≤ S := by
    have h := sumExps_atLeast_one he scores T m hmem hmax
    rw [hexps, hS] at h
    rcases h with h | ⟨S', hS', h⟩
    · cases h
    · rw [JsNumber.fin.inj h]; exact hS'
  have hfin_hi : (1 + 1 / 2 ^ 53 : ℚ) * (1 / (1 - 1000000 * (1 / 2 ^ 53 + 1 / 2 ^ 1075))) +
      1000000 * (1 / 2 ^ 1075) ≤ 1 + 1 / 10 ^ 9 := by norm_num
  have hfin_lo : (1 : ℚ) - 1 / 10 ^ 9 ≤
      (1 - 1 / 2 ^ 53) * (1 / (1 + 2 * 1000000 * (1 / 2 ^ 53 + 1 / 2 ^ 1075))) -
        1000000 * (1 / 2 ^ 1075) := by norm_num
  have hu1 : (1 / 2 ^ 53 : ℚ) ≤ 1 := by norm_num
  generalize hu : (1 / 2 ^ 53 : ℚ) = u at *
  generalize hη : (1 / 2 ^ 1075 : ℚ) = η at *
  set E := ys.sum with hE
  set n : ℚ := (ys.length : ℚ) with hn
  have hnu : n * u ≤ 1000000 * u := mul_le_mul_of_nonneg_right hnq hu0
  have hnη : n * η ≤ 1000000 * η := mul_le_mul_of_nonneg_right hnq hη0
  have hnu0 : 0 ≤ n * u := mul_nonneg hn0 hu0
  have hnη0 : 0 ≤ n * η := mul_nonneg hn0 hη0
  have hE0 : (0 : ℚ) ≤ E := by linarith
  -- `S` is close to the exact sum `E`
  have hSlo : E * (1 - 1000000 * (u + η)) ≤ S := by
    have h1 : E * (n * u) ≤ E * (1000000 * u) := mul_le_mul_of_nonneg_left hnu hE0
    have h2 : n * η ≤ E * (1000000 * η) := by
      calc n * η ≤ 1000000 * η := hnη
        _ = 1 * (1000000 * η) := (one_mul _).symm
        _ ≤ E * (1000000 * η) := mul_le_mul_of_nonneg_right hE1 (by linarith)
    nlinarith
  have hShi : S ≤ E * (1 + 2 * 1000000 * (u + η)) := by
    have h1 : E * (n * u) ≤ E * (1000000 * u) := mul_le_mul_of_nonneg_left hnu hE0
    have h2 : n * η ≤ E * (1000000 * η) := by
      calc n * η ≤ 1000000 * η := hnη
        _ = 1 * (1000000 * η) := (one_mul _).symm
        _ ≤ E * (1000000 * η) := mul_le_mul_of_nonneg_right hE1 (by linarith)
    nlinarith
  have hD1 : (0 : ℚ) < 1 - 1000000 * (u + η) := by rw [← hu, ← hη]; norm_num
  have hD2 : (0 : ℚ) < 1 + 2 * 1000000 * (u + η) := by rw [← hu, ← hη]; norm_num
  have hSpos : 0 < S := lt_of_lt_of_le (mul_pos (by linarith) hD1) hSlo
  have hES_hi : E / S ≤ 1 / (1 - 1000000 * (u + η)) := by
    rw [div_le_div_iff₀ hSpos hD1]; linarith
  have hES_lo : 1 / (1 + 2 * 1000000 * (u + η)) ≤ E / S := by
    rw [div_le_div_iff₀ hD2 hSpos]; linarith
  -- the outputs
  have hthr := overflowThreshold_pos
  have hq01 : ∀ y ∈ ys, 0 ≤ y / S ∧ y / S ≤ 1 := by
    intro y hy
    have h01 := hys01 y hy
    refine ⟨div_nonneg h01.1 hSpos.le, ?_⟩
    rw [div_le_one hSpos]
    linarith
  have hq : ∀ y ∈ ys, fdiv (JsNumber.fin y) (JsNumber.fin S) =
      JsNumber.fin (roundFinite (y / S)) := by
    intro y hy
    apply fdiv_fin hSpos.ne.symm
    rw [abs_of_nonneg (hq01 y hy).1]
    linarith [(hq01 y hy).2]
  refine ⟨ys.map (fun y => roundFinite (y / S)), ?_, ?_⟩
  · rw [hout, hexps, hS, List.map_map]
    have hcomp : scores.map (fun s => fdiv (shiftedExp e m (roundFinite (s / T)))
        (JsNumber.fin S)) = ys.map (fun y => fdiv (JsNumber.fin y) (JsNumber.fin S)) := by
      rw [hys, List.map_map]
      apply List.map_congr_left
      intro s hs
      obtain ⟨y, hy, _, _⟩ := shiftedExp_unit he (hmax s hs)
      simp only [Function.comp_apply, hy, JsNumber.toRat]
    rw [hcomp]
    apply List.map_congr_left
    intro y hy
    simp only [Function.comp_apply]
    exact hq y hy
  · -- every output is within `q * u + η` of the exact quotient `q = y / S`
    have hbnd : ∀ y ∈ ys, |roundFinite (y / S) - y / S| ≤ y / S * u + η := by
      intro y hy
      have := herr (y / S)
      rwa [abs_of_nonneg (hq01 y hy).1] at this
    have hup : (ys.map (fun y => roundFinite (y / S))).sum ≤ (1 + u) / S * E + n * η := by
      apply sum_map_le_of_le
      intro y hy
      have := (abs_le.1 (hbnd y hy)).2
      have e : (1 + u) / S * y = y / S + y / S * u := by field_simp; ring
      rw [e]; linarith
    have hdown : (1 - u) / S * E - n * η ≤ (ys.map (fun y => roundFinite (y / S))).sum := by
      apply le_sum_map_of_le
      intro y hy
      have := (abs_le.1 (hbnd y hy)).1
      have e : (1 - u) / S * y = y / S - y / S * u := by field_simp; ring
      rw [e]; linarith
    have e1 : (1 + u) / S * E = (1 + u) * (E / S) := by field_simp
    have e2 : (1 - u) / S * E = (1 - u) * (E / S) := by field_simp
    rw [e1] at hup
    rw [e2] at hdown
    have h1 : (1 + u) * (E / S) ≤ (1 + u) * (1 / (1 - 1000000 * (u + η))) :=
      mul_le_mul_of_nonneg_left hES_hi (by linarith)
    have h2 : (1 - u) * (1 / (1 + 2 * 1000000 * (u + η))) ≤ (1 - u) * (E / S) :=
      mul_le_mul_of_nonneg_left hES_lo (by linarith)
    rw [abs_le]
    constructor <;> linarith

theorem softmaxDouble_sum_near_one_witness :
    ExpUnitRange sampleExp ∧ ([4, 7 / 2] : List ℚ) ≠ [] ∧ (0 : ℚ) < 1 ∧
      (∀ s ∈ ([4, 7 / 2] : List ℚ), |s / 1| < overflowThreshold) ∧
      ([4, 7 / 2] : List ℚ).length ≤ 1000000 ∧
      ∃ ps : List ℚ,
        softmaxDouble sampleExp (([4, 7 / 2] : List ℚ).map JsNumber.fin) (JsNumber.fin 1) =
            ps.map JsNumber.fin ∧
          |ps.sum - 1| ≤ 1 / 10 ^ 9 :=
  have hno : ∀ s ∈ ([4, 7 / 2] : List ℚ), |s / 1| < overflowThreshold := by
    intro s hs
    simp only [List.mem_cons, List.mem_singleton, List.not_mem_nil, or_false] at hs
    rcases hs with rfl | rfl <;> (unfold overflowThreshold; norm_num [abs_lt])
  ⟨sampleExp_unitRange, by simp, by norm_num, hno, by simp,
    softmaxDouble_sum_near_one sampleExp sampleExp_unitRange [4, 7 / 2] 1 (by simp)
      (by norm_num) hno (by simp)⟩

/-! ### Low temperatures -/

/-- A quotient of finite Numbers that overflows to `+Infinity`. -/
theorem fdiv_overflow {s T : ℚ} (hT : 0 < T) (h : overflowThreshold * T ≤ s) :
    fdiv (JsNumber.fin s) (JsNumber.fin T) = JsNumber.posInf := by
  simp only [fdiv, if_neg hT.ne.symm]
  unfold round64
  rw [if_pos ((le_div_iff₀ hT).2 h)]

/-- At every temperature `0 < T ≤ 2 ^ (-1025)` all five quotients of the table overflow and
`softmax` returns `NaN` five times. -/
theorem softmaxDouble_table_small_temperature (e : ℚ → JsNumber) (T : ℚ) (hT : 0 < T)
    (hsmall : T ≤ 1 / 2 ^ 1025) :
    softmaxDouble e ((initialLogits ℚ).map (fun l => JsNumber.fin l.logit)) (JsNumber.fin T) =
      [JsNumber.nan, JsNumber.nan, JsNumber.nan, JsNumber.nan, JsNumber.nan] := by
  have hthr : overflowThreshold * T ≤ 1 / 2 := by
    have h1 : overflowThreshold ≤ 2 ^ 1024 := by unfold overflowThreshold; norm_num
    calc overflowThreshold * T ≤ 2 ^ 1024 * (1 / 2 ^ 1025) :=
          mul_le_mul h1 hsmall hT.le (by positivity)
      _ = 1 / 2 := by norm_num
  have hov : ∀ s : ℚ, 1 / 2 ≤ s → fdiv (JsNumber.fin s) (JsNumber.fin T) = JsNumber.posInf :=
    fun s hs => fdiv_overflow hT (le_trans hthr hs)
  have h4 := hov 4.0 (by norm_num)
  have h35 := hov 3.5 (by norm_num)
  have h2 := hov 2.0 (by norm_num)
  have h15 := hov 1.5 (by norm_num)
  have h05 := hov 0.5 (by norm_num)
  simp only [softmaxDouble, initialLogits, List.map_cons, List.map_nil, h4, h35, h2, h15, h05]
  simp only [mathMaxDouble, List.foldl_cons, List.foldl_nil, jsMax, fsub, mathExp, fadd, fdiv,
    List.map_cons, List.map_nil]

/-- C7 (as stated, refuted): on the table, whose first entry alone has the maximum score,
`softmax` returns `NaN` at every temperature `0 < T ≤ 2 ^ (-1025)`, whatever `Math.exp`
computes; so there is no bound below which the first value stays within `1 / 2` of 1. -/
theorem softmaxDouble_table_no_limit :
    (∀ (e : ℚ → JsNumber) (T : ℚ), 0 < T → T ≤ 1 / 2 ^ 1025 →
        softmaxDouble e ((initialLogits ℚ).map (fun l => JsNumber.fin l.logit))
            (JsNumber.fin T) =
          [JsNumber.nan, JsNumber.nan, JsNumber.nan, JsNumber.nan, JsNumber.nan]) ∧
      ¬ ∃ δ : ℚ, 0 < δ ∧
          ∀ (e : ℚ → JsNumber) (T : ℚ), 0 < T → T < δ →
            ∃ p : ℚ,
              (softmaxDouble e ((initialLogits ℚ).map (fun l => JsNumber.fin l.logit))
                  (JsNumber.fin T))[0]? = some (JsNumber.fin p) ∧
                |p - 1| ≤ 1 / 2 := by
  refine ⟨softmaxDouble_table_small_temperature, ?_⟩
  rintro ⟨δ, hδ, h⟩
  have hpos : (0 : ℚ) < min (δ / 2) (1 / 2 ^ 1025) := lt_min (by linarith) (by positivity)
  have hlt : min (δ / 2) (1 / 2 ^ 1025) < δ := lt_of_le_of_lt (min_le_left _ _) (by linarith)
  obtain ⟨p, hp, _⟩ := h sampleExp _ hpos hlt
  rw [softmaxDouble_table_small_temperature sampleExp _ hpos (min_le_right _ _)] at hp
  simp at hp

/-- The running sum is unchanged by entries equal to 0. -/
theorem foldl_fadd_zeros (xs : List JsNumber) (hxs : ∀ x ∈ xs, x = JsNumber.fin 0) (a : ℚ)
    (ha : roundFinite a = a) (hlt : |a| < overflowThreshold) :
    xs.foldl (fun a b => fadd a b) (JsNumber.fin a) = JsNumber.fin a := by
  induction xs with
  | nil => rfl
  | cons x t ih =>
    have hx : x = JsNumber.fin 0 := hxs x (List.mem_cons_self _ _)
    have hstep : fadd (JsNumber.fin a) x = JsNumber.fin a := by
      rw [hx]
      simp only [fadd, add_zero]
      rw [round64_of_abs_lt hlt, ha]
    simp only [List.foldl_cons, hstep]
    exact ih (fun y hy => hxs y (List.mem_cons_of_mem _ hy))

theorem fadd_zero_one : fadd (JsNumber.fin 0) (JsNumber.fin 1) = JsNumber.fin 1 := by
  simp only [fadd, zero_add]
  rw [round64_of_abs_lt (by rw [abs_one]; exact overflowThreshold_pos), roundFinite_one]

/-- The sum of an array whose entry at position `i` is 1 and whose other entries are 0. -/
theorem foldl_fadd_single_one (xs : List JsNumber) (i : ℕ) (hi : i < xs.length)
    (h1 : xs[i] = JsNumber.fin 1)
    (h0 : ∀ (j : ℕ) (hj : j < xs.length), j ≠ i → xs[j] = JsNumber.fin 0) :
    xs.foldl (fun a b => fadd a b) (JsNumber.fin 0) = JsNumber.fin 1 := by
  have hthr := overflowThreshold_pos
  have hsplit : xs = xs.take i ++ xs[i] :: xs.drop (i + 1) := by
    rw [List.getElem_cons_drop, List.take_append_drop]
  have htake : ∀ x ∈ xs.take i, x = JsNumber.fin 0 := by
    intro x hx
    obtain ⟨j, hj, rfl⟩ := List.mem_take_iff_getElem.1 hx
    have hj1 : j < i := lt_of_lt_of_le hj (min_le_left _ _)
    exact h0 j (lt_of_lt_of_le hj (min_le_right _ _)) (by omega)
  have hdrop : ∀ x ∈ xs.drop (i + 1), x = JsNumber.fin 0 := by
    intro x hx
    obtain ⟨j, hj, rfl⟩ := List.mem_drop_iff_getElem.1 hx
    exact h0 (i + 1 + j) (by omega) (by omega)
  rw [hsplit, List.foldl_append, List.foldl_cons,
    foldl_fadd_zeros _ htake 0 roundFinite_zero (by rw [abs_zero]; linarith), h1, fadd_zero_one,
    foldl_fadd_zeros _ hdrop 1 roundFinite_one (by rw [abs_one]; exact hthr)]

/-- An argument of `Math.exp` at most `-747` before rounding is at most `-746` after. -/
theorem roundFinite_le_of_le {d : ℚ} (hd : d ≤ -747) : roundFinite d ≤ -746 := by
  have h := roundFinite_error d
  rw [abs_of_neg (by linarith : d < 0)] at h
  have h2 := (abs_le.1 h).2
  have hη : (1 : ℚ) / 2 ^ 1075 ≤ 1 / 2 := by
    apply div_le_div_of_nonneg_left zero_le_one (by norm_num)
    exact le_self_pow₀ (by norm_num) (by norm_num)
  have hu : -d / 2 ^ 53 ≤ -d / 2 := by
    apply div_le_div_of_nonneg_left (by linarith) (by norm_num)
    exact le_self_pow₀ (by norm_num) (by norm_num)
  have hu' : -d / 2 ^ 53 = -d * (1 / 2 ^ 53) := by ring
  have hsmall : (1 : ℚ) / 2 ^ 53 ≤ 1 / 2 ^ 10 := by
    apply div_le_div_of_nonneg_left zero_le_one (by positivity)
    exact pow_le_pow_right₀ (by norm_num) (by norm_num)
  have hprod : -d * (1 / 2 ^ 53) ≤ -d * (1 / 2 ^ 10) :=
    mul_le_mul_of_nonneg_left hsmall (by linarith)
  norm_num at hprod hη
  nlinarith

theorem shiftedExp_underflow {e : ℚ → JsNumber} (hz : ExpUnderflow e) {a m : ℚ}
    (h : a - m ≤ -747) : shiftedExp e m a = JsNumber.fin 0 := by
  unfold shiftedExp
  rcases fsub_fin_le (show a ≤ m by linarith) with h1 | ⟨h1, _⟩
  · rw [h1]; rfl
  · rw [h1]
    have hr := roundFinite_le_of_le h
    have hne : roundFinite (a - m) ≠ 0 := by linarith
    simp only [mathExp, if_neg hne]
    exact hz _ hr

/-- A quotient of magnitude at most `2 ^ 52` moves by less than 1 when rounded. -/
theorem roundFinite_quotient_error {q : ℚ} (hq : |q| ≤ 2 ^ 52) :
    |roundFinite q - q| ≤ 1 / 2 + 1 / 2 ^ 1075 := by
  have h := roundFinite_error q
  have : |q| / 2 ^ 53 ≤ 1 / 2 := by
    rw [div_le_iff₀ (by positivity)]
    calc |q| ≤ 2 ^ 52 := hq
      _ = 1 / 2 * 2 ^ 53 := by norm_num
  linarith

/-- C7 (amended): for every list of finite scores in which position `i` exceeds every other
position by at least `749 * T`, at a temperature `T > 0` with every quotient `score / T` of
magnitude at most `2 ^ 52`, `softmax` returns exactly 1 at position `i` and exactly 0 at
every other position, provided `Math.exp` underflows to 0 at arguments not above `-746`. -/
theorem softmaxDouble_one_hot (e : ℚ → JsNumber) (hz : ExpUnderflow e) (scores : List ℚ)
    (T : ℚ) (hT : 0 < T) (i : ℕ) (hi : i < scores.length)
    (hbound : ∀ s ∈ scores, |s / T| ≤ 2 ^ 52)
    (hgap : ∀ (j : ℕ) (hj : j < scores.length), j ≠ i → 749 ≤ (scores[i] - scores[j]) / T) :
    ∀ (j : ℕ), j < scores.length →
      (softmaxDouble e (scores.map JsNumber.fin) (JsNumber.fin T))[j]? =
        some (JsNumber.fin (if j = i then 1 else 0)) := by
  have hthr : (2 : ℚ) ^ 52 < overflowThreshold := by unfold overflowThreshold; norm_num
  have hη : (1 : ℚ) / 2 ^ 1075 ≤ 1 / 4 := by
    apply div_le_div_of_nonneg_left zero_le_one (by norm_num)
    calc (4 : ℚ) = 2 ^ 2 := by norm_num
      _ ≤ 2 ^ 1075 := pow_le_pow_right₀ (by norm_num) (by norm_num)
  have hne : scores ≠ [] := by
    intro h
    rw [h] at hi
    exact absurd hi (by simp)
  have hno : ∀ s ∈ scores, |s / T| < overflowThreshold :=
    fun s hs => lt_of_le_of_lt (hbound s hs) hthr
  obtain ⟨m, hmem, hmax, hout⟩ := softmaxDouble_finite e scores T hne hT.ne.symm hno
  have herr : ∀ s ∈ scores, |roundFinite (s / T) - s / T| ≤ 1 / 2 + 1 / 2 ^ 1075 :=
    fun s hs => roundFinite_quotient_error (hbound s hs)
  have hsi : scores[i] ∈ scores := List.getElem_mem hi
  -- every other rounded quotient is at least 747 below the one at position `i`
  have hbelow : ∀ (j : ℕ) (hj : j < scores.length), j ≠ i →
      roundFinite (scores[j] / T) - roundFinite (scores[i] / T) ≤ -747 := by
    intro j hj hji
    have hg := hgap j hj hji
    have h1 := (abs_le.1 (herr _ (List.getElem_mem hj))).2
    have h2 := (abs_le.1 (herr _ hsi)).1
    have hsub : (scores[i] - scores[j]) / T = scores[i] / T - scores[j] / T := sub_div _ _ _
    rw [hsub] at hg
    linarith
  -- so `maxLogit` is the rounded quotient at position `i`
  have hm : m = roundFinite (scores[i] / T) := by
    obtain ⟨s, hs, hsm⟩ := hmem
    obtain ⟨k, hk, rfl⟩ := List.getElem_of_mem hs
    by_cases hki : k = i
    · subst hki; exact hsm.symm
    · have h1 := hbelow k hk hki
      have h2 := hmax _ hsi
      rw [← hsm] at h2
      linarith
  subst hm
  -- the entries of `exps`
  have hexp_i : shiftedExp e (roundFinite (scores[i] / T)) (roundFinite (scores[i] / T)) =
      JsNumber.fin 1 := shiftedExp_self e _
  have hexp_j : ∀ (j : ℕ) (hj : j < scores.length), j ≠ i →
      shiftedExp e (roundFinite (scores[i] / T)) (roundFinite (scores[j] / T)) =
        JsNumber.fin 0 :=
    fun j hj hji => shiftedExp_underflow hz (hbelow j hj hji)
  -- their sum
  have hsum : (scores.map (fun s =>
      shiftedExp e (roundFinite (scores[i] / T)) (roundFinite (s / T)))).foldl
        (fun a b => fadd a b) (JsNumber.fin 0) = JsNumber.fin 1 := by
    apply foldl_fadd_single_one _ i (by simpa using hi)
    · rw [List.getElem_map]; exact hexp_i
    · intro j hj hji
      rw [List.getElem_map]
      exact hexp_j j (by simpa using hj) hji
  have hdiv1 : fdiv (JsNumber.fin 1) (JsNumber.fin 1) = JsNumber.fin 1 := by
    rw [fdiv_fin one_ne_zero (by rw [div_one, abs_one]; exact overflowThreshold_pos), div_one,
      roundFinite_one]
  have hdiv0 : fdiv (JsNumber.fin 0) (JsNumber.fin 1) = JsNumber.fin 0 := by
    rw [fdiv_fin one_ne_zero (by rw [zero_div, abs_zero]; linarith [overflowThreshold_pos]),
      zero_div, roundFinite_zero]
  intro j hj
  rw [hout, hsum, List.getElem?_map, List.getElem?_eq_getElem hj, Option.map_some']
  by_cases hji : j = i
  · subst hji
    rw [if_pos rfl, hexp_i, hdiv1]
  · rw [if_neg hji, hexp_j j hj hji, hdiv0]

theorem softmaxDouble_one_hot_witness :
    ExpUnderflow sampleExp ∧ (0 : ℚ) < 1 / 2000 ∧
      (∀ s ∈ ([4, 7 / 2] : List ℚ), |s / (1 / 2000)| ≤ 2 ^ 52) ∧
      (∀ (j : ℕ) (hj : j < ([4, 7 / 2] : List ℚ).length), j ≠ 0 →
        749 ≤ (([4, 7 / 2] : List ℚ)[0] - ([4, 7 / 2] : List ℚ)[j]) / (1 / 2000)) ∧
      ∀ (j : ℕ), j < ([4, 7 / 2] : List ℚ).length →
        (softmaxDouble sampleExp (([4, 7 / 2] : List ℚ).map JsNumber.fin)
            (JsNumber.fin (1 / 2000)))[j]? =
          some (JsNumber.fin (if j = 0 then 1 else 0)) :=
  have hbound : ∀ s ∈ ([4, 7 / 2] : List ℚ), |s / (1 / 2000)| ≤ 2 ^ 52 := by
    intro s hs
    simp only [List.mem_cons, List.mem_singleton, List.not_mem_nil, or_false] at hs
    rcases hs with rfl | rfl <;> norm_num [abs_le]
  have hgap : ∀ (j : ℕ) (hj : j < ([4, 7 / 2] : List ℚ).length), j ≠ 0 →
      749 ≤ (([4, 7 / 2] : List ℚ)[0] - ([4, 7 / 2] : List ℚ)[j]) / (1 / 2000) := by
    intro j hj hne
    have hj2 : j < 2 := by simpa using hj
    have h1 : j = 1 := by omega
    subst h1
    norm_num
  ⟨sampleExp_underflow, by norm_num, hbound, hgap,
    softmaxDouble_one_hot sampleExp sampleExp_underflow [4, 7 / 2] (1 / 2000) (by norm_num) 0
      (by simp) hbound hgap⟩

/-! ### Order preservation -/

/-- C9 (as stated, refuted): on `[2 ^ 1023, 0]` at the temperature `1 / 2 > 0` the first
value returned by `softmax` is `NaN`, not the mathematical softmax of the first score, and
the unshifted quotient of exponentials evaluated on Numbers is `[NaN, 0]`, so subtracting
the maximum does change an output. -/
theorem softmaxDouble_overflow_differs_from_reference :
    (0 : ℚ) < 1 / 2 ∧
      ∀ e : ℚ → JsNumber,
        softmaxDouble e ([2 ^ 1023, 0].map JsNumber.fin) (JsNumber.fin (1 / 2)) =
            [JsNumber.nan, JsNumber.nan] ∧
          softmaxReferenceDouble e ([2 ^ 1023, 0].map JsNumber.fin) (JsNumber.fin (1 / 2)) =
            [JsNumber.nan, JsNumber.fin 0] ∧
          ¬ ∃ q : ℚ,
              (softmaxDouble e ([2 ^ 1023, 0].map JsNumber.fin) (JsNumber.fin (1 / 2)))[0]? =
                  some (JsNumber.fin q) ∧
                (softmaxReference Real.exp [2 ^ 1023, 0] (1 / 2))[0]? = some (q : ℝ) := by
  refine ⟨by norm_num, fun e => ⟨softmaxDouble_overflow e, ?_, ?_⟩⟩
  · have h1 : fdiv (JsNumber.fin (2 ^ 1023)) (JsNumber.fin (1 / 2)) = JsNumber.posInf := by
      simp only [fdiv]
      rw [if_neg (by norm_num)]
      unfold round64 overflowThreshold
      rw [if_pos (by norm_num)]
    have h2 : fdiv (JsNumber.fin 0) (JsNumber.fin (1 / 2)) = JsNumber.fin 0 := by
      rw [fdiv_fin (by norm_num) (by rw [zero_div, abs_zero]; linarith [overflowThreshold_pos]),
        zero_div, roundFinite_zero]
    simp only [softmaxReferenceDouble, List.map_cons, List.map_nil, h1, h2]
    simp only [mathExp, if_true, List.foldl_cons, List.foldl_nil, fadd, fdiv]
  · rintro ⟨q, hq, _⟩
    rw [show ([2 ^ 1023, 0] : List ℚ).map JsNumber.fin =
      [JsNumber.fin (2 ^ 1023), JsNumber.fin 0] from rfl, softmaxDouble_overflow] at hq
    simp at hq

/-- C9 (amended): for every array of Numbers and every temperature, `softmax` returns an
array of the same length whose `i`-th element is computed from the `i`-th score (its
quotient by the temperature, shifted by `maxLogit`, exponentiated and divided by
`sumExps`), and `updateTempViz` puts beside the `i`-th token the `i`-th element returned
for the logits of `initialLogits`. -/
theorem softmaxDouble_order_preserving (e : ℚ → JsNumber) (logits : List JsNumber)
    (temp : JsNumber) :
    (softmaxDouble e logits temp).length = logits.length ∧
      (∀ (i : ℕ) (hi : i < logits.length),
        (softmaxDouble e logits temp)[i]? =
          some (fdiv
            (mathExp e
              (fsub (fdiv logits[i] temp) (mathMaxDouble (logits.map (fun l => fdiv l temp)))))
            ((logits.map (fun l =>
              mathExp e (fsub (fdiv l temp)
                (mathMaxDouble (logits.map (fun l => fdiv l temp)))))).foldl
              (fun a b => fadd a b) (JsNumber.fin 0)))) ∧
      updateTempViz e temp =
        List.zipWith (fun item p => (item.token, some p)) (initialLogits ℚ)
          (softmaxDouble e ((initialLogits ℚ).map (fun l => JsNumber.fin l.logit)) temp) := by
  refine ⟨by simp [softmaxDouble], ?_, ?_⟩
  · intro i hi
    rw [softmaxDouble_eq_map, List.getElem?_map, List.getElem?_eq_getElem hi]
    rfl
  · unfold updateTempViz
    rw [softmaxDouble_eq_map]
    simp [initialLogits, List.enum, List.enumFrom]

theorem softmaxDouble_order_preserving_witness :
    (softmaxDouble sampleExp [JsNumber.fin 4, JsNumber.nan] (JsNumber.fin 1)).length =
        [JsNumber.fin 4, JsNumber.nan].length ∧
      (∀ (i : ℕ) (hi : i < [JsNumber.fin 4, JsNumber.nan].length),
        (softmaxDouble sampleExp [JsNumber.fin 4, JsNumber.nan] (JsNumber.fin 1))[i]? =
          some (fdiv
            (mathExp sampleExp
              (fsub (fdiv [JsNumber.fin 4, JsNumber.nan][i] (JsNumber.fin 1))
                (mathMaxDouble
                  ([JsNumber.fin 4, JsNumber.nan].map (fun l => fdiv l (JsNumber.fin 1))))))
            (([JsNumber.fin 4, JsNumber.nan].map (fun l =>
              mathExp sampleExp (fsub (fdiv l (JsNumber.fin 1))
                (mathMaxDouble
                  ([JsNumber.fin 4, JsNumber.nan].map (fun l => fdiv l (JsNumber.fin 1))))))).foldl
              (fun a b => fadd a b) (JsNumber.fin 0)))) ∧
      updateTempViz sampleExp (JsNumber.fin 1) =
        List.zipWith (fun item p => (item.token, some p)) (initialLogits ℚ)
          (softmaxDouble sampleExp ((initialLogits ℚ).map (fun l => JsNumber.fin l.logit))
            (JsNumber.fin 1)) :=
  softmaxDouble_order_preserving sampleExp [JsNumber.fin 4, JsNumber.nan] (JsNumber.fin 1)

end Lesson2

namespace MobileMenu

/-! ### The mobile menu -/

/-- C10: every step of the handlers installed by `initMobileMenu` (click on the toggle,
click inside the menu, click outside both, Escape keydown, any other keydown) taken from
a state where `aria-expanded` is `'true'` exactly when the menu lacks `'hidden'` ends in
such a state; a click on the toggle flips whether the menu has `'hidden'`, and after a
click outside both or an Escape keydown the menu has `'hidden'`. -/
theorem step_preserves_consistent (s : MenuState) (e : Event) (hinv : Consistent s) :
    Consistent (step s e) ∧
      (step s Event.clickToggle).hidden = !s.hidden ∧
      (step s Event.clickOutside).hidden = true ∧
      (step s (Event.keydown "Escape")).hidden = true := by
  obtain ⟨hidden, aria⟩ := s
  refine ⟨?_, ?_, ?_, ?_⟩
  · cases e with
    | clickToggle =>
      cases hidden <;> simp [step, toggleClick, documentClick, Consistent]
    | clickMenu => simpa [step, documentClick] using hinv
    | clickOutside => simp [step, documentClick, Consistent]
    | keydown key =>
      by_cases hk : (key == "Escape" && !hidden) = true
      · simp [step, documentKeydown, hk, Consistent]
      · simpa [step, documentKeydown, hk] using hinv
  · cases hidden <;> simp [step, toggleClick, documentClick]
  · simp [step, documentClick]
  · cases hidden <;> simp [step, documentKeydown]

theorem step_preserves_consistent_witness :
    Consistent { hidden := true, ariaExpanded := some "false" } ∧
      (Consistent (step { hidden := true, ariaExpanded := some "false" } Event.clickToggle) ∧
        (step { hidden := true, ariaExpanded := some "false" } Event.clickToggle).hidden =
          !(MenuState.mk true (some "false")).hidden ∧
        (step { hidden := true, ariaExpanded := some "false" } Event.clickOutside).hidden = true ∧
        (step { hidden := true, ariaExpanded := some "false" } (Event.keydown "Escape")).hidden =
          true) :=
  ⟨by decide,
    step_preserves_consistent { hidden := true, ariaExpanded := some "false" }
      Event.clickToggle (by decide)⟩

end MobileMenu
